import Mathlib

/-!
Verification of the backend triad of the `tpcompilers` teaching compiler:
the register machine (`Asm`), the code generator (`Visitor.GenVisitor`)
and the register allocator (`Optimizer.RegAllocator`).

The instruction set and the machine come from `Asm.py`, which is not part
of the sources available here; those definitions are modelled from the
specification (sections 3 and 4.1).  The generator and the allocator are
shallow embeddings of `Visitor.py` and `Optimizer.py`.
-/

namespace Tp

/-! ## Instruction set (modelled from the spec)

`Modelled from the spec:` `Asm.py` defines one class per instruction
(`Addi`, `Add`, `Sub`, `Mul`, `Div`, `Xor`, `Xori`, `Slt`, `Slti`, `Lw`,
`Sw`, `Jal`, `Jalr`, `Beq`).  Section 3 of the spec groups them by shape:
binary-register, binary-immediate, load and store.  The control-transfer
instructions (`Jal`, `Jalr`, `Beq`) are not register-allocated and are not
needed by any claim, so the model covers the straight-line fragment. -/

/-- The binary register-register opcodes (`op dst, src1, src2`). -/
inductive BOp where
  | add | sub | mul | div | xor | slt
deriving DecidableEq, Repr

/-- The binary register-immediate opcodes (`op dst, src1, imm`). -/
inductive IOp where
  | addi | xori | slti
deriving DecidableEq, Repr

/-- One machine instruction.  `lw rs1 offset reg` loads `mem[val rs1 + offset]`
into `reg`; `sw rs1 offset reg` stores `val reg` at `mem[val rs1 + offset]`,
matching the `Lw(rs1, offset, reg)` / `Sw(rs1, offset, reg)` constructors. -/
inductive Instr where
  | rop (op : BOp) (rd rs1 rs2 : String)
  | iop (op : IOp) (rd rs1 : String) (imm : Int)
  | lw (rs1 : String) (offset : Int) (reg : String)
  | sw (rs1 : String) (offset : Int) (reg : String)
deriving DecidableEq, Repr

/-! ## Machine state and execution (modelled from the spec, section 4.1) -/

/-- `Modelled from the spec:` a `Program`'s mutable state: a register/slot
environment (name to integer, unbound names are `none`) and a flat
integer-indexed memory. -/
structure MState where
  env : String → Option Int
  mem : Int → Int

instance : Inhabited MState := ⟨⟨fun _ => none, fun _ => 0⟩⟩

/-- `Program.get_val`: reading an unbound name is fatal (`none`). -/
def getVal (st : MState) (x : String) : Option Int := st.env x

/-- Writing a register.  `Modelled from the spec:` the zero-constant
register `x0` always reads 0 and writes to it are no-ops. -/
def setReg (st : MState) (x : String) (v : Int) : MState :=
  if x = "x0" then st
  else { st with env := fun y => if y = x then some v else st.env y }

/-- Writing one memory cell. -/
def setMem (st : MState) (a v : Int) : MState :=
  { st with mem := fun b => if b = a then v else st.mem b }

/-- `Modelled from the spec:` semantics of the register-register opcodes.
Division truncates toward zero and division by zero is fatal. -/
def semBin : BOp → Int → Int → Option Int
  | .add, a, b => some (a + b)
  | .sub, a, b => some (a - b)
  | .mul, a, b => some (a * b)
  | .div, a, b => if b = 0 then none else some (Int.tdiv a b)
  | .xor, a, b => some (Int.xor a b)
  | .slt, a, b => some (if a < b then 1 else 0)

/-- `Modelled from the spec:` semantics of the register-immediate opcodes. -/
def semImm : IOp → Int → Int → Int
  | .addi, a, i => a + i
  | .xori, a, i => Int.xor a i
  | .slti, a, i => if a < i then 1 else 0

/-- `Modelled from the spec:` one execution step.  `N` is the memory size;
an out-of-range address is fatal.  Every instruction here implicitly
advances the pc by 1, so straight-line execution is a left-to-right fold. -/
def step (N : Nat) (st : MState) : Instr → Option MState
  | .rop op rd rs1 rs2 =>
      match getVal st rs1 with
      | none => none
      | some a =>
        match getVal st rs2 with
        | none => none
        | some b =>
          match semBin op a b with
          | none => none
          | some v => some (setReg st rd v)
  | .iop op rd rs1 imm =>
      match getVal st rs1 with
      | none => none
      | some a => some (setReg st rd (semImm op a imm))
  | .lw rs1 off reg =>
      match getVal st rs1 with
      | none => none
      | some b =>
        if 0 ≤ b + off ∧ b + off < (N : Int) then
          some (setReg st reg (st.mem (b + off)))
        else none
  | .sw rs1 off reg =>
      match getVal st rs1 with
      | none => none
      | some b =>
        match getVal st reg with
        | none => none
        | some v =>
          if 0 ≤ b + off ∧ b + off < (N : Int) then
            some (setMem st (b + off) v)
          else none

/-- `Program.eval`: run the instruction list from the first instruction. -/
def evalInsts (N : Nat) : List Instr → MState → Option MState
  | [], st => some st
  | i :: rest, st => (step N st i).bind (evalInsts N rest)

/-- `Modelled from the spec:` the initial state of a `Program`: the caller
environment, with `x0` pre-seeded to 0 and `sp` to the memory size, and
memory zero-initialised. -/
def initState (N : Nat) (env0 : String → Option Int) : MState :=
  { env := fun x => if x = "x0" then some 0
                    else if x = "sp" then some (N : Int)
                    else env0 x,
    mem := fun _ => 0 }

/-- The empty caller environment. -/
def envEmpty : String → Option Int := fun _ => none

/-- Observable value of a name after running a program from its initial
state (the `p.eval(); p.get_val(n)` pattern of the doctests). -/
def evalVal (N : Nat) (env0 : String → Option Int) (insts : List Instr)
    (n : String) : Option Int :=
  (evalInsts N insts (initState N env0)).bind fun st => st.env n

/-! ## The register allocator (`Optimizer.RegAllocator`) -/

/-- `RegAllocator.usable_regs`. -/
def usableRegs : List String := ["a1", "a2", "a3", "a0"]

/-- `RegAllocator.other_regs`: the reserved registers. -/
def otherRegs : List String := ["x0", "ra", "sp"]

/-- The seven fixed physical register names of the machine. -/
def physRegs : List String := otherRegs ++ usableRegs

/-- Stand-in for the Python value `None` that `next_var_name` returns when
every general-purpose register is occupied.  `%` cannot occur in a
register name, so the marker collides with no real name. -/
def noneReg : String := "%None"

/-- Per-pass allocator state: `reg_map`, `mem_map` and `mem_counter`.
`reg_map` is a key-unique association list mirroring the Python dict
(`next_var_name` needs its set of values); `mem_map` is only ever looked
up pointwise, so a functional map suffices. -/
structure AllocSt where
  reg_map : List (String × String)
  mem_map : String → Option Int
  mem_counter : Int

/-- The allocator state at the start of a pass (`RegAllocator.__init__`). -/
def initAlloc : AllocSt := { reg_map := [], mem_map := fun _ => none, mem_counter := -1 }

/-- Dict lookup in `reg_map`. -/
def rmLookup : List (String × String) → String → Option String
  | [], _ => none
  | (k, v) :: rest, x => if x = k then some v else rmLookup rest x

/-- Dict assignment `reg_map[var] = reg` (replaces any previous binding). -/
def rmInsert (m : List (String × String)) (k v : String) : List (String × String) :=
  (k, v) :: m.filter fun p => ¬(p.1 = k)

/-- `del reg_map[var]` when present (`RegAllocator.cleanup_maps`). -/
def rmErase (m : List (String × String)) (k : String) : List (String × String) :=
  m.filter fun p => ¬(p.1 = k)

/-- `reg_map.values()`. -/
def rmValues (m : List (String × String)) : List String := m.map Prod.snd

/-- Scan of `usable_regs` for one that is not a current value of
`reg_map`; `noneReg` models the Python `return None`. -/
def nextFree : List String → List String → String
  | [], _ => noneReg
  | r :: rs, vals => if r ∈ vals then nextFree rs vals else r

/-- `RegAllocator.next_var_name`. -/
def nextVarName (a : AllocSt) : String :=
  nextFree usableRegs (rmValues a.reg_map)

/-- `RegAllocator.get_var_name`: resolve a virtual name to a physical
register, possibly prepending a reload from its spill address. -/
def getVarName (a : AllocSt) (v : String) : String × Option Instr × AllocSt :=
  if v ∈ otherRegs then (v, none, a)
  else
    match rmLookup a.reg_map v with
    | some r => (r, none, a)
    | none =>
      match a.mem_map v with
      | some addr =>
          let r := nextVarName a
          (r, some (.lw "x0" addr r), { a with reg_map := rmInsert a.reg_map v r })
      | none =>
          let r := nextVarName a
          (r, none, { a with reg_map := rmInsert a.reg_map v r })

/-- `RegAllocator.cleanup_maps` on one name. -/
def cleanup (a : AllocSt) (v : String) : AllocSt :=
  { a with reg_map := rmErase a.reg_map v }

/-- Record a spill address in `mem_map`. -/
def mmInsert (a : AllocSt) (v : String) (addr : Int) : AllocSt :=
  { a with mem_map := fun y => if y = v then some addr else a.mem_map y }

/-- `RegAllocator.alloc_binary_op` on a register-register instruction. -/
def allocRop (a : AllocSt) (op : BOp) (rd rs1 rs2 : String) : List Instr × AllocSt :=
  let (nrs1, inst1, a1) := getVarName a rs1
  let (nrs2, inst2, a2) := getVarName a1 rs2
  let (nrd, inst3, a3) :=
    if nrs1 ∈ otherRegs ∨ nrs2 ∈ otherRegs then getVarName a2 rd
    else ((if ¬(nrs1 ∈ otherRegs) then nrs1 else nrs2), none, a2)
  let insts := inst1.toList ++ inst2.toList ++ inst3.toList ++ [Instr.rop op nrd nrs1 nrs2]
  let (insts, a4) :=
    if ¬(nrd ∈ otherRegs) then
      let pos := a3.mem_counter + 1
      (insts ++ [Instr.sw "x0" pos nrd],
       cleanup { (mmInsert a3 rd pos) with mem_counter := pos } rd)
    else (insts, a3)
  let a5 := cleanup a4 rs1
  let a6 := cleanup a5 rs2
  (insts, a6)

/-- `RegAllocator.alloc_binary_op` on a register-immediate instruction:
the immediate bypasses resolution (`new_rs2 = inst.imm`), the membership
test on the immediate is vacuously false, and there is no `rs2` to
release. -/
def allocIop (a : AllocSt) (op : IOp) (rd rs1 : String) (imm : Int) : List Instr × AllocSt :=
  let (nrs1, inst1, a1) := getVarName a rs1
  let (nrd, inst3, a3) :=
    if nrs1 ∈ otherRegs then getVarName a1 rd
    else (nrs1, none, a1)
  let insts := inst1.toList ++ inst3.toList ++ [Instr.iop op nrd nrs1 imm]
  let (insts, a4) :=
    if ¬(nrd ∈ otherRegs) then
      let pos := a3.mem_counter + 1
      (insts ++ [Instr.sw "x0" pos nrd],
       cleanup { (mmInsert a3 rd pos) with mem_counter := pos } rd)
    else (insts, a3)
  let a5 := cleanup a4 rs1
  (insts, a5)

/-- `RegAllocator.alloc_load`: both operands are resolved, the rewritten
load is emitted, and only the base's `reg_map` entry is released — the
destination stays resident and nothing is spilled. -/
def allocLoad (a : AllocSt) (rs1 : String) (off : Int) (reg : String) : List Instr × AllocSt :=
  let (nreg, inst1, a1) := getVarName a reg
  let (nrs1, inst2, a2) := getVarName a1 rs1
  let insts := inst1.toList ++ inst2.toList ++ [Instr.lw nrs1 off nreg]
  (insts, cleanup a2 rs1)

/-- `RegAllocator.alloc_store`: the absolute address `val(base) + offset`
is read from the program's current (initial) register values, which can
fail; it is recorded in `mem_map` under the stored logical name. -/
def allocStore (penv : String → Option Int) (a : AllocSt) (rs1 : String) (off : Int)
    (reg : String) : Option (List Instr × AllocSt) :=
  let (nreg, inst1, a1) := getVarName a reg
  let (nrs1, inst2, a2) := getVarName a1 rs1
  let insts := inst1.toList ++ inst2.toList ++ [Instr.sw nrs1 off nreg]
  match penv nrs1 with
  | none => none
  | some b => some (insts, cleanup (mmInsert a2 reg (b + off)) reg)

/-- Dispatch on the opcode (`RegAllocator.alloc_action`). -/
def allocInst (penv : String → Option Int) (a : AllocSt) : Instr → Option (List Instr × AllocSt)
  | .rop op rd rs1 rs2 => some (allocRop a op rd rs1 rs2)
  | .iop op rd rs1 imm => some (allocIop a op rd rs1 imm)
  | .lw rs1 off reg => some (allocLoad a rs1 off reg)
  | .sw rs1 off reg => allocStore penv a rs1 off reg

/-- The allocation pass (`RegAllocator.optimize`): process the stream in
order, concatenating the rewritten blocks. -/
def allocSeq (penv : String → Option Int) (a : AllocSt) :
    List Instr → Option (List Instr × AllocSt)
  | [] => some ([], a)
  | i :: rest =>
      match allocInst penv a i with
      | none => none
      | some (block, a1) =>
        match allocSeq penv a1 rest with
        | none => none
        | some (blocks, a2) => some (block ++ blocks, a2)

/-- Run a whole allocation pass on a program's instruction list, starting
from a fresh allocator (`RegAllocator(p); o.optimize()`). -/
def allocate (N : Nat) (env0 : String → Option Int) (insts : List Instr) :
    Option (List Instr × AllocSt) :=
  allocSeq (initState N env0).env initAlloc insts

/-- `RegAllocator.get_val`: locate a logical name through `reg_map` then
`mem_map` and read the program state there; not found is fatal. -/
def allocGetVal (N : Nat) (a : AllocSt) (st : MState) (x : String) : Option Int :=
  match rmLookup a.reg_map x with
  | some r => st.env r
  | none =>
    match a.mem_map x with
    | some addr => if 0 ≤ addr ∧ addr < (N : Int) then some (st.mem addr) else none
    | none => none

/-- Register-valued operand names of an instruction (immediates and
offsets excluded). -/
def regNames : Instr → List String
  | .rop _ rd rs1 rs2 => [rd, rs1, rs2]
  | .iop _ rd rs1 _ => [rd, rs1]
  | .lw rs1 _ reg => [rs1, reg]
  | .sw rs1 _ reg => [rs1, reg]

/-- The instructions the allocator spills (`instructions_to_store`): the
binary register-register and register-immediate shapes. -/
def isBinary : Instr → Prop
  | .rop _ _ _ _ => True
  | .iop _ _ _ _ => True
  | .lw _ _ _ => False
  | .sw _ _ _ => False

instance : DecidablePred isBinary := fun i => by
  cases i <;> simp only [isBinary] <;> infer_instance

/-! ## The expression language and the code generator (`Visitor.GenVisitor`)

The expression node classes live in `Expression.py` (not among the
sources); their shapes are fully determined by the visitor methods of
`Visitor.py`: `Var`, `Bln`, `Num`, `Eql`, `Add`, `Sub`, `Mul`, `Div`,
`Leq`, `Lth`, `Neg`, `Not`, `Let`. -/

/-- The expression tree consumed by the code generator. -/
inductive Expr where
  | num (n : Int)
  | bln (b : Bool)
  | evar (x : String)
  | add (l r : Expr)
  | sub (l r : Expr)
  | mul (l r : Expr)
  | div (l r : Expr)
  | eql (l r : Expr)
  | leq (l r : Expr)
  | lth (l r : Expr)
  | neg (e : Expr)
  | enot (e : Expr)
  | elet (x : String) (d b : Expr)
deriving DecidableEq, Repr

/-- Generator state: the fresh-name counter (`next_var_counter`) and the
scope stack (`var_scope`, a map from source name to the stack of active
binding names, innermost last). -/
structure GenSt where
  counter : Nat
  scope : String → List String

/-- `GenVisitor.__init__`. -/
def initGen : GenSt := { counter := 0, scope := fun _ => [] }

/-- `GenVisitor.next_var_name`: pre-increment the counter and mint `v<n>`. -/
def freshName (g : GenSt) : String × GenSt :=
  let c := g.counter + 1
  ("v" ++ toString c, { g with counter := c })

/-- `GenVisitor._generate_unique_name`: the minted binding name is the
source name tagged with the current depth of its scope stack. -/
def pushUnique (g : GenSt) (x : String) : String × GenSt :=
  let l := g.scope x
  let nm := x ++ "_" ++ toString l.length
  (nm, { g with scope := fun y => if y = x then l ++ [nm] else g.scope y })

/-- `GenVisitor._pop_variable`. -/
def popVar (g : GenSt) (x : String) : GenSt :=
  { g with scope := fun y => if y = x then (g.scope x).dropLast else g.scope y }

/-- The innermost active binding name, if any
(`GenVisitor._get_current_var_name`, scope-stack part). -/
def currentName (g : GenSt) (x : String) : Option String :=
  (g.scope x).getLast?

/-- The code generator (`GenVisitor.visit_*`).  `penv` is the program's
register environment at generation time (the fallback
`prog.get_val(var_name)` of `_get_current_var_name`); instructions are
returned in emission order together with the name holding the result.
`none` models the fatal unbound-variable exit. -/
def gen (penv : String → Option Int) : Expr → GenSt → Option (List Instr × String × GenSt)
  | .evar x, g =>
      (match currentName g x with
       | some n => some ([], n, g)
       | none => match penv x with
         | some _ => some ([], x, g)
         | none => none)
  | .num n, g =>
      let (v, g1) := freshName g
      some ([.iop .addi v "x0" n], v, g1)
  | .bln b, g =>
      if b then
        let (v, g1) := freshName g
        some ([.iop .addi v "x0" 1], v, g1)
      else some ([], "x0", g)
  | .add l r, g =>
      match gen penv l g with
      | none => none
      | some (il, rl, g1) =>
        match gen penv r g1 with
        | none => none
        | some (ir, rr, g2) =>
          let (v, g3) := freshName g2
          some (il ++ ir ++ [.rop .add v rl rr], v, g3)
  | .sub l r, g =>
      match gen penv l g with
      | none => none
      | some (il, rl, g1) =>
        match gen penv r g1 with
        | none => none
        | some (ir, rr, g2) =>
          let (v, g3) := freshName g2
          some (il ++ ir ++ [.rop .sub v rl rr], v, g3)
  | .mul l r, g =>
      match gen penv l g with
      | none => none
      | some (il, rl, g1) =>
        match gen penv r g1 with
        | none => none
        | some (ir, rr, g2) =>
          let (v, g3) := freshName g2
          some (il ++ ir ++ [.rop .mul v rl rr], v, g3)
  | .div l r, g =>
      match gen penv l g with
      | none => none
      | some (il, rl, g1) =>
        match gen penv r g1 with
        | none => none
        | some (ir, rr, g2) =>
          let (v, g3) := freshName g2
          some (il ++ ir ++ [.rop .div v rl rr], v, g3)
  | .eql l r, g =>
      match gen penv l g with
      | none => none
      | some (il, rl, g1) =>
        match gen penv r g1 with
        | none => none
        | some (ir, rr, g2) =>
          let (v1, g3) := freshName g2
          let (v2, g4) := freshName g3
          let (v3, g5) := freshName g4
          let (v4, g6) := freshName g5
          some (il ++ ir ++
            [.rop .slt v1 rl rr, .rop .slt v2 rr rl, .rop .xor v3 v1 v2, .iop .xori v4 v3 1],
            v4, g6)
  | .leq l r, g =>
      match gen penv l g with
      | none => none
      | some (il, rl, g1) =>
        match gen penv r g1 with
        | none => none
        | some (ir, rr, g2) =>
          let (v1, g3) := freshName g2
          let (v2, g4) := freshName g3
          some (il ++ ir ++ [.rop .slt v1 rr rl, .iop .xori v2 v1 1], v2, g4)
  | .lth l r, g =>
      match gen penv l g with
      | none => none
      | some (il, rl, g1) =>
        match gen penv r g1 with
        | none => none
        | some (ir, rr, g2) =>
          let (v1, g3) := freshName g2
          some (il ++ ir ++ [.rop .slt v1 rl rr], v1, g3)
  | .neg e, g =>
      match gen penv e g with
      | none => none
      | some (ie, re, g1) =>
        let (v1, g2) := freshName g1
        let (v2, g3) := freshName g2
        some (ie ++ [.iop .addi v1 "x0" (-1), .rop .mul v2 re v1], v2, g3)
  | .enot e, g =>
      match gen penv e g with
      | none => none
      | some (ie, re, g1) =>
        let (v1, g2) := freshName g1
        let (v2, g3) := freshName g2
        let (v3, g4) := freshName g3
        let (v4, g5) := freshName g4
        some (ie ++
          [.rop .slt v1 "x0" re, .rop .slt v2 re "x0", .rop .add v3 v1 v2, .iop .xori v4 v3 1],
          v4, g5)
  | .elet x d b, g =>
      match gen penv d g with
      | none => none
      | some (idf, rdf, g1) =>
        let (nm, g2) := pushUnique g1 x
        match gen penv b g2 with
        | none => none
        | some (ib, rb, g3) =>
          some (idf ++ [.iop .addi nm rdf 0] ++ ib, rb, popVar g3 x)

/-- Generate code for `e` into a fresh program with caller environment
`env0`, run it and read the result name (`e.accept(g, p); p.eval();
p.get_val(v)`). -/
def genRun (N : Nat) (env0 : String → Option Int) (e : Expr) : Option Int :=
  match gen (initState N env0).env e initGen with
  | some (insts, r, _) => evalVal N env0 insts r
  | none => none

/-- The full backend pipeline: generate, register-allocate, execute the
allocated stream, and read the result name back through the allocator's
final `reg_map`/`mem_map` (`RegAllocator.get_val`). -/
def compileAllocRun (N : Nat) (env0 : String → Option Int) (e : Expr) : Option Int :=
  match gen (initState N env0).env e initGen with
  | some (insts, r, _) =>
    (match allocate N env0 insts with
     | some (insts2, aF) =>
       (evalInsts N insts2 (initState N env0)).bind fun st => allocGetVal N aF st r
     | none => none)
  | none => none

/-! ## The reference interpretation of expression trees

This is the specification side of the semantic round-trip claim: the
standard meaning of the expression language, with booleans as 0/1,
truncating division, and innermost-wins let bindings. -/

/-- Innermost binding of `x` in a source-level environment. -/
def lookupEnv : List (String × Int) → String → Option Int
  | [], _ => none
  | (k, v) :: rest, x => if x = k then some v else lookupEnv rest x

/-- The reference interpreter of expression trees. -/
def interp (ρ : List (String × Int)) : Expr → Option Int
  | .num n => some n
  | .bln b => some (if b then 1 else 0)
  | .evar x => lookupEnv ρ x
  | .add l r => do
      let a ← interp ρ l
      let b ← interp ρ r
      return a + b
  | .sub l r => do
      let a ← interp ρ l
      let b ← interp ρ r
      return a - b
  | .mul l r => do
      let a ← interp ρ l
      let b ← interp ρ r
      return a * b
  | .div l r => do
      let a ← interp ρ l
      let b ← interp ρ r
      if b = 0 then none else return Int.tdiv a b
  | .eql l r => do
      let a ← interp ρ l
      let b ← interp ρ r
      return if a = b then 1 else 0
  | .leq l r => do
      let a ← interp ρ l
      let b ← interp ρ r
      return if a ≤ b then 1 else 0
  | .lth l r => do
      let a ← interp ρ l
      let b ← interp ρ r
      return if a < b then 1 else 0
  | .neg e => do
      let a ← interp ρ e
      return -a
  | .enot e => do
      let a ← interp ρ e
      return if a = 0 then 1 else 0
  | .elet x d b => do
      let v ← interp ρ d
      interp ((x, v) :: ρ) b

/-- The name an instruction writes (for a store: the name whose value is
stored; a store writes no register). -/
def rdOf : Instr → String
  | .rop _ rd _ _ => rd
  | .iop _ rd _ _ => rd
  | .lw _ _ reg => reg
  | .sw _ _ reg => reg

/-! ## Concrete programs used by the claims -/

/-- Two sibling `let`s binding the same source variable:
`(let x ← 1 in x end) + (let x ← 2 in x end)`. -/
def siblingLets : Expr :=
  .add (.elet "x" (.num 1) (.evar "x")) (.elet "x" (.num 2) (.evar "x"))

/-- A one-instruction program whose source operand is bound only in the
caller-supplied initial environment. -/
def envReadProg : List Instr := [.iop .addi "b" "z" 0]

/-- An initial environment binding `z` to 5. -/
def envZ5 : String → Option Int := fun x => if x = "z" then some 5 else none

/-- A single load into a fresh virtual name. -/
def oneLoadProg : List Instr := [.lw "x0" 5 "a"]

/-- A binary instruction whose second source is the reserved register
`x0` while its first source is virtual. -/
def reservedSrcProg : List Instr := [.rop .add "c" "a" "x0"]

/-- A program that writes the reserved stack pointer through a binary
instruction with virtual sources, then reads it back. -/
def reservedDestProg : List Instr :=
  [.iop .addi "b" "x0" 7, .rop .add "sp" "b" "b", .iop .addi "c" "sp" 0]

/-- Five loads into five distinct virtual names: each load leaves its
destination resident in `reg_map`, so the fifth request for a free
general-purpose register finds none. -/
def fiveLoadsProg : List Instr :=
  [.lw "x0" 0 "a", .lw "x0" 0 "b", .lw "x0" 0 "c", .lw "x0" 0 "d", .lw "x0" 0 "e"]

/-- An initial environment binding only `z`, to an arbitrary integer. -/
def envZ (x : Int) : String → Option Int := fun n => if n = "z" then some x else none

/-! ## Simulation invariants for the allocation-preserves-semantics proof -/

/-- Relation between the allocator's `reg_map` and the two machines in the
middle of one rewritten block: every resident virtual name is bound to a
general-purpose register that currently holds that name's value in the
unallocated machine. -/
def RMGood (a : AllocSt) (stU stM : MState) : Prop :=
  ∀ p ∈ a.reg_map, p.2 ∈ usableRegs ∧ stM.env p.2 = stU.env p.1

/-- The simulation invariant between instructions of a binary-only
program: `reg_map` is empty, the zero register reads 0, the two machines
agree on the reserved registers, `mem_counter` stays within the spill
area already used (and below the memory size), every recorded spill
address is in that area, and every defined non-reserved name of the
unallocated machine has a spill slot holding its value in the allocated
machine's memory. -/
def SimInv (N : Nat) (stU stA : MState) (a : AllocSt) : Prop :=
  a.reg_map = [] ∧
  stU.env "x0" = some 0 ∧
  (∀ r ∈ otherRegs, stA.env r = stU.env r) ∧
  (-1 ≤ a.mem_counter ∧ a.mem_counter < (N : Int)) ∧
  (∀ n ad, a.mem_map n = some ad → 0 ≤ ad ∧ ad ≤ a.mem_counter) ∧
  (∀ n v, ¬ n ∈ otherRegs → stU.env n = some v →
    ∃ ad, a.mem_map n = some ad ∧ stA.mem ad = v)

/-! # Theorems -/

/-- Looking a key up after erasing it finds nothing. -/
theorem rmLookup_erase_self (m : List (String × String)) (k : String) :
    rmLookup (rmErase m k) k = none := by
  induction m with
  | nil => rfl
  | cons p rest ih =>
    obtain ⟨k', v'⟩ := p
    by_cases hk : k' = k
    · simpa [rmErase, List.filter_cons, hk] using ih
    · have h1 : rmErase ((k', v') :: rest) k = (k', v') :: rmErase rest k := by
        simp [rmErase, List.filter_cons, hk]
      rw [h1]
      simp only [rmLookup]
      rw [if_neg (fun hh => hk hh.symm)]
      exact ih

/-- Erasing a key preserves the absence of any key. -/
theorem rmLookup_erase_none (m : List (String × String)) (k x : String)
    (h : rmLookup m x = none) : rmLookup (rmErase m k) x = none := by
  induction m with
  | nil => rfl
  | cons p rest ih =>
    obtain ⟨k', v'⟩ := p
    simp only [rmLookup] at h
    by_cases hx : x = k'
    · rw [if_pos hx] at h; cases h
    · rw [if_neg hx] at h
      by_cases hk : k' = k
      · have h1 : rmErase ((k', v') :: rest) k = rmErase rest k := by
          simp [rmErase, List.filter_cons, hk]
        rw [h1]; exact ih h
      · have h1 : rmErase ((k', v') :: rest) k = (k', v') :: rmErase rest k := by
          simp [rmErase, List.filter_cons, hk]
        rw [h1]
        simp only [rmLookup]
        rw [if_neg hx]
        exact ih h

/-- Operand resolution never touches `mem_map` or `mem_counter`. -/
theorem getVarName_mem_map (a : AllocSt) (v : String) :
    (getVarName a v).2.2.mem_map = a.mem_map ∧
    (getVarName a v).2.2.mem_counter = a.mem_counter := by
  simp only [getVarName]
  split
  · exact ⟨rfl, rfl⟩
  · split
    · exact ⟨rfl, rfl⟩
    · split <;> exact ⟨rfl, rfl⟩

/-- Claim C3 (amended): every binary/binary-immediate instruction whose
rewritten destination is not reserved is immediately followed by a store
of the destination register to the fresh spill address `mem_counter + 1`,
that address is recorded in `mem_map` under the virtual destination, and
the destination's `reg_map` entry is dropped; when the rewritten
destination is reserved, the rewritten instruction comes last and neither
`mem_map` nor `mem_counter` changes.  (Load instructions are exempt from
all of this — see the counterexample.) -/
theorem c3_binary_result_spilled (penv : String → Option Int) (a : AllocSt) (i : Instr)
    (hbin : isBinary i) (blk : List Instr) (a' : AllocSt)
    (h : allocInst penv a i = some (blk, a')) :
    (∃ pre j d, isBinary j ∧ rdOf j = d ∧ ¬ d ∈ otherRegs ∧
        blk = pre ++ [j, .sw "x0" (a.mem_counter + 1) d] ∧
        a'.mem_map (rdOf i) = some (a.mem_counter + 1) ∧
        rmLookup a'.reg_map (rdOf i) = none ∧
        a'.mem_counter = a.mem_counter + 1) ∨
    (∃ pre j d, isBinary j ∧ rdOf j = d ∧ d ∈ otherRegs ∧ blk = pre ++ [j] ∧
        a'.mem_map = a.mem_map ∧ a'.mem_counter = a.mem_counter) := by
  cases i with
  | lw rs1 off reg => simp [isBinary] at hbin
  | sw rs1 off reg => simp [isBinary] at hbin
  | rop op rd rs1 rs2 =>
    simp only [allocInst, Option.some_inj] at h
    rcases hg1 : getVarName a rs1 with ⟨nrs1, i1, a1⟩
    rcases hg2 : getVarName a1 rs2 with ⟨nrs2, i2, a2⟩
    have hmm1 := getVarName_mem_map a rs1
    have hmm2 := getVarName_mem_map a1 rs2
    rw [hg1] at hmm1
    rw [hg2] at hmm2
    by_cases hres : nrs1 ∈ otherRegs ∨ nrs2 ∈ otherRegs
    · rcases hg3 : getVarName a2 rd with ⟨nrd, i3, a3⟩
      have hmm3 := getVarName_mem_map a2 rd
      rw [hg3] at hmm3
      by_cases hrd : nrd ∈ otherRegs
      · right
        simp only [allocRop, hg1, hg2, hg3, if_pos hres, if_neg (not_not_intro hrd)] at h
        injection h with hb ha
        subst hb; subst ha
        refine ⟨i1.toList ++ i2.toList ++ i3.toList, Instr.rop op nrd nrs1 nrs2, nrd,
          trivial, rfl, hrd, by simp [List.append_assoc], ?_, ?_⟩
        · show (cleanup (cleanup a3 rs1) rs2).mem_map = a.mem_map
          simp only [cleanup]
          rw [hmm3.1, hmm2.1, hmm1.1]
        · show (cleanup (cleanup a3 rs1) rs2).mem_counter = a.mem_counter
          simp only [cleanup]
          rw [hmm3.2, hmm2.2, hmm1.2]
      · left
        simp only [allocRop, hg1, hg2, hg3, if_pos hres, if_pos hrd] at h
        injection h with hb ha
        subst hb; subst ha
        have hc : a3.mem_counter = a.mem_counter := by rw [hmm3.2, hmm2.2, hmm1.2]
        refine ⟨i1.toList ++ i2.toList ++ i3.toList, Instr.rop op nrd nrs1 nrs2, nrd,
          trivial, rfl, hrd, by simp [List.append_assoc, hc], ?_, ?_, ?_⟩
        · show (cleanup (cleanup (cleanup _ rd) rs1) rs2).mem_map rd = _
          simp [cleanup, mmInsert, hc]
        · show rmLookup (rmErase (rmErase (rmErase _ rd) rs1) rs2) rd = none
          exact rmLookup_erase_none _ _ _ (rmLookup_erase_none _ _ _ (rmLookup_erase_self _ _))
        · show (cleanup (cleanup (cleanup _ rd) rs1) rs2).mem_counter = _
          simp only [cleanup, mmInsert]
          rw [hc]
    · push_neg at hres
      obtain ⟨hres1, hres2⟩ := hres
      left
      have hOr : ¬(nrs1 ∈ otherRegs ∨ nrs2 ∈ otherRegs) := not_or.mpr ⟨hres1, hres2⟩
      simp only [allocRop, hg1, hg2, if_neg hOr, if_pos hres1] at h
      injection h with hb ha
      subst hb; subst ha
      have hc : a2.mem_counter = a.mem_counter := by rw [hmm2.2, hmm1.2]
      refine ⟨i1.toList ++ i2.toList, Instr.rop op nrs1 nrs1 nrs2, nrs1,
        trivial, rfl, hres1, by simp [List.append_assoc, hc], ?_, ?_, ?_⟩
      · show (cleanup (cleanup (cleanup _ rd) rs1) rs2).mem_map rd = _
        simp [cleanup, mmInsert, hc]
      · show rmLookup (rmErase (rmErase (rmErase _ rd) rs1) rs2) rd = none
        exact rmLookup_erase_none _ _ _ (rmLookup_erase_none _ _ _ (rmLookup_erase_self _ _))
      · show (cleanup (cleanup (cleanup _ rd) rs1) rs2).mem_counter = _
        simp only [cleanup, mmInsert]
        rw [hc]
  | iop op rd rs1 imm =>
    simp only [allocInst, Option.some_inj] at h
    rcases hg1 : getVarName a rs1 with ⟨nrs1, i1, a1⟩
    have hmm1 := getVarName_mem_map a rs1
    rw [hg1] at hmm1
    by_cases hres : nrs1 ∈ otherRegs
    · rcases hg3 : getVarName a1 rd with ⟨nrd, i3, a3⟩
      have hmm3 := getVarName_mem_map a1 rd
      rw [hg3] at hmm3
      by_cases hrd : nrd ∈ otherRegs
      · right
        simp only [allocIop, hg1, hg3, if_pos hres, if_neg (not_not_intro hrd)] at h
        injection h with hb ha
        subst hb; subst ha
        refine ⟨i1.toList ++ i3.toList, Instr.iop op nrd nrs1 imm, nrd,
          trivial, rfl, hrd, by simp [List.append_assoc], ?_, ?_⟩
        · show (cleanup a3 rs1).mem_map = a.mem_map
          simp only [cleanup]
          rw [hmm3.1, hmm1.1]
        · show (cleanup a3 rs1).mem_counter = a.mem_counter
          simp only [cleanup]
          rw [hmm3.2, hmm1.2]
      · left
        simp only [allocIop, hg1, hg3, if_pos hres, if_pos hrd] at h
        injection h with hb ha
        subst hb; subst ha
        have hc : a3.mem_counter = a.mem_counter := by rw [hmm3.2, hmm1.2]
        refine ⟨i1.toList ++ i3.toList, Instr.iop op nrd nrs1 imm, nrd,
          trivial, rfl, hrd, by simp [List.append_assoc, hc], ?_, ?_, ?_⟩
        · show (cleanup (cleanup (cleanup _ rd) rd) rs1).mem_map rd = _
          simp [cleanup, mmInsert, hc]
        · show rmLookup (rmErase (rmErase _ rd) rs1) rd = none
          exact rmLookup_erase_none _ _ _ (rmLookup_erase_self _ _)
        · show (cleanup (cleanup _ rd) rs1).mem_counter = _
          simp only [cleanup, mmInsert]
          rw [hc]
    · left
      simp only [allocIop, hg1, if_neg hres, if_pos hres] at h
      injection h with hb ha
      subst hb; subst ha
      have hc : a1.mem_counter = a.mem_counter := hmm1.2
      refine ⟨i1.toList, Instr.iop op nrs1 nrs1 imm, nrs1,
        trivial, rfl, hres, by simp [List.append_assoc, hc], ?_, ?_, ?_⟩
      · show (cleanup (cleanup _ rd) rs1).mem_map rd = _
        simp [cleanup, mmInsert, hc]
      · show rmLookup (rmErase (rmErase _ rd) rs1) rd = none
        exact rmLookup_erase_none _ _ _ (rmLookup_erase_self _ _)
      · show (cleanup (cleanup _ rd) rs1).mem_counter = _
        simp only [cleanup, mmInsert]
        rw [hc]

/-- Witness for `c3_binary_result_spilled`: the spill emitted for a
concrete `addi` instruction from a fresh allocator state. -/
theorem c3_binary_result_spilled_witness :
    isBinary (Instr.iop .addi "b" "x0" 3) ∧
    ((∃ pre j d, isBinary j ∧ rdOf j = d ∧ ¬ d ∈ otherRegs ∧
        ((allocInst envEmpty initAlloc (.iop .addi "b" "x0" 3)).getD ([], initAlloc)).1 =
          pre ++ [j, .sw "x0" (initAlloc.mem_counter + 1) d] ∧
        ((allocInst envEmpty initAlloc (.iop .addi "b" "x0" 3)).getD
          ([], initAlloc)).2.mem_map (rdOf (.iop .addi "b" "x0" 3)) =
            some (initAlloc.mem_counter + 1) ∧
        rmLookup ((allocInst envEmpty initAlloc (.iop .addi "b" "x0" 3)).getD
          ([], initAlloc)).2.reg_map (rdOf (.iop .addi "b" "x0" 3)) = none ∧
        ((allocInst envEmpty initAlloc (.iop .addi "b" "x0" 3)).getD
          ([], initAlloc)).2.mem_counter = initAlloc.mem_counter + 1) ∨
      (∃ pre j d, isBinary j ∧ rdOf j = d ∧ d ∈ otherRegs ∧
        ((allocInst envEmpty initAlloc (.iop .addi "b" "x0" 3)).getD ([], initAlloc)).1 =
          pre ++ [j] ∧
        ((allocInst envEmpty initAlloc (.iop .addi "b" "x0" 3)).getD
          ([], initAlloc)).2.mem_map = initAlloc.mem_map ∧
        ((allocInst envEmpty initAlloc (.iop .addi "b" "x0" 3)).getD
          ([], initAlloc)).2.mem_counter = initAlloc.mem_counter)) :=
  ⟨trivial, c3_binary_result_spilled envEmpty initAlloc (.iop .addi "b" "x0" 3) trivial
    ((allocInst envEmpty initAlloc (.iop .addi "b" "x0" 3)).getD ([], initAlloc)).1
    ((allocInst envEmpty initAlloc (.iop .addi "b" "x0" 3)).getD ([], initAlloc)).2
    rfl⟩

/-- With at most three occupied values, the scan of `usable_regs` finds a
free general-purpose register (and never returns an occupied one). -/
theorem nextFree_usable (vals : List String) (h : vals.length ≤ 3) :
    nextFree usableRegs vals ∈ usableRegs ∧ ¬ nextFree usableRegs vals ∈ vals := by
  simp only [usableRegs, nextFree]
  by_cases h1 : "a1" ∈ vals
  · simp only [if_pos h1]
    by_cases h2 : "a2" ∈ vals
    · simp only [if_pos h2]
      by_cases h3 : "a3" ∈ vals
      · simp only [if_pos h3]
        by_cases h4 : "a0" ∈ vals
        · exfalso
          have hsub : (["a1", "a2", "a3", "a0"] : List String) ⊆ vals := by
            intro x hx
            simp only [List.mem_cons, List.not_mem_nil, or_false] at hx
            rcases hx with rfl | rfl | rfl | rfl
            · exact h1
            · exact h2
            · exact h3
            · exact h4
          have hnd : (["a1", "a2", "a3", "a0"] : List String).Nodup := by decide
          have := (hnd.subperm hsub).length_le
          simp at this
          omega
        · simp only [if_neg h4]
          exact ⟨by decide, h4⟩
      · simp only [if_neg h3]
        exact ⟨by decide, h3⟩
    · simp only [if_neg h2]
      exact ⟨by decide, h2⟩
  · simp only [if_neg h1]
    exact ⟨by decide, h1⟩

/-- A successful lookup returns one of the map's values. -/
theorem rmLookup_mem_values (m : List (String × String)) (x r : String)
    (h : rmLookup m x = some r) : r ∈ rmValues m := by
  induction m with
  | nil => cases h
  | cons p rest ih =>
    obtain ⟨k', v'⟩ := p
    simp only [rmLookup] at h
    by_cases hx : x = k'
    · rw [if_pos hx] at h
      injection h with h
      subst h
      exact List.mem_cons_self _ _
    · rw [if_neg hx] at h
      exact List.mem_cons_of_mem _ (ih h)

/-- Membership after a dict assignment. -/
theorem mem_rmInsert (m : List (String × String)) (k v : String) (p : String × String)
    (h : p ∈ rmInsert m k v) : p = (k, v) ∨ p ∈ m := by
  simp only [rmInsert, List.mem_cons, List.mem_filter] at h
  rcases h with h | h
  · exact Or.inl h
  · exact Or.inr h.1

/-- A dict assignment grows the map by at most one entry. -/
theorem rmInsert_length (m : List (String × String)) (k v : String) :
    (rmInsert m k v).length ≤ m.length + 1 := by
  simp only [rmInsert, List.length_cons]
  have := List.length_filter_le (fun p => decide ¬(p.1 = k)) m
  omega

/-- Values after a dict assignment. -/
theorem rmValues_rmInsert (m : List (String × String)) (k v : String) (r : String)
    (h : r ∈ rmValues (rmInsert m k v)) : r = v ∨ r ∈ rmValues m := by
  simp only [rmValues, rmInsert, List.map_cons, List.mem_cons] at h
  rcases h with h | h
  · exact Or.inl h
  · simp only [List.mem_map] at h
    obtain ⟨p, hp, hr⟩ := h
    exact Or.inr (by simp only [rmValues, List.mem_map]; exact ⟨p, (List.mem_filter.mp hp).1, hr⟩)

/-- The general-purpose registers are not reserved. -/
theorem usable_not_other : ∀ r ∈ usableRegs, ¬ r ∈ otherRegs := by decide

/-- Syntactic facts about one operand resolution: starting from a small
`reg_map` whose values are general-purpose registers, the resolved name is
physical, any emitted reload only mentions physical names, the map grows
by at most one entry keyed by the resolved virtual name, and resolving to
a reserved register leaves the state untouched. -/
theorem getVarName_syn (a : AllocSt) (v : String) (nr : String) (ld : Option Instr)
    (a' : AllocSt) (hg : getVarName a v = (nr, ld, a'))
    (hlen : a.reg_map.length ≤ 3)
    (hvals : ∀ r ∈ rmValues a.reg_map, r ∈ usableRegs) :
    (nr ∈ otherRegs ∨ nr ∈ usableRegs) ∧
    (∀ j ∈ ld.toList, ∀ x ∈ regNames j, x ∈ physRegs) ∧
    a'.reg_map.length ≤ a.reg_map.length + 1 ∧
    (∀ r ∈ rmValues a'.reg_map, r ∈ usableRegs) ∧
    (∀ p ∈ a'.reg_map, p.1 = v ∨ p ∈ a.reg_map) ∧
    (nr ∈ otherRegs → a' = a) := by
  have hvlen : (rmValues a.reg_map).length = a.reg_map.length := by
    simp [rmValues]
  simp only [getVarName] at hg
  split at hg
  · rename_i hv
    injection hg with h1 hg
    injection hg with h2 h3
    subst h1; subst h2; subst h3
    refine ⟨Or.inl hv, by simp, by omega, hvals, fun p hp => Or.inr hp, fun _ => rfl⟩
  · rename_i hv
    split at hg
    · rename_i r hl
      injection hg with h1 hg
      injection hg with h2 h3
      subst h1; subst h2; subst h3
      have hr := hvals _ (rmLookup_mem_values _ _ _ hl)
      exact ⟨Or.inr hr, by simp, by omega, hvals, fun p hp => Or.inr hp, fun _ => rfl⟩
    · rename_i hl
      have hfree := nextFree_usable (rmValues a.reg_map) (by omega)
      split at hg
      · rename_i addr hm
        injection hg with h1 hg
        injection hg with h2 h3
        subst h1; subst h2; subst h3
        refine ⟨Or.inr hfree.1, ?_, ?_, ?_, ?_, ?_⟩
        · intro j hj x hx
          simp only [Option.toList_some, List.mem_singleton] at hj
          subst hj
          simp only [regNames, List.mem_cons, List.not_mem_nil, or_false] at hx
          rcases hx with rfl | rfl
          · decide
          · simp only [physRegs, List.mem_append]
            exact Or.inr hfree.1
        · show (rmInsert a.reg_map v (nextVarName a)).length ≤ _
          exact rmInsert_length _ _ _
        · intro r hr
          rcases rmValues_rmInsert _ _ _ _ hr with h | h
          · subst h; exact hfree.1
          · exact hvals _ h
        · intro p hp
          rcases mem_rmInsert _ _ _ _ hp with h | h
          · subst h; exact Or.inl rfl
          · exact Or.inr h
        · intro hno
          exact absurd hno (usable_not_other _ hfree.1)
      · injection hg with h1 hg
        injection hg with h2 h3
        subst h1; subst h2; subst h3
        refine ⟨Or.inr hfree.1, by simp, rmInsert_length _ _ _, ?_, ?_, ?_⟩
        · intro r hr
          rcases rmValues_rmInsert _ _ _ _ hr with h | h
          · subst h; exact hfree.1
          · exact hvals _ h
        · intro p hp
          rcases mem_rmInsert _ _ _ _ hp with h | h
          · subst h; exact Or.inl rfl
          · exact Or.inr h
        · intro hno
          exact absurd hno (usable_not_other _ hfree.1)

/-- Membership after a dict deletion. -/
theorem mem_rmErase (m : List (String × String)) (k : String) (p : String × String) :
    p ∈ rmErase m k ↔ p ∈ m ∧ ¬ p.1 = k := by
  simp [rmErase, List.mem_filter]

/-- Deleting the only two possible keys empties the map. -/
theorem rmErase_pair (m : List (String × String)) (k1 k2 : String)
    (h : ∀ p ∈ m, p.1 = k1 ∨ p.1 = k2) : rmErase (rmErase m k1) k2 = [] := by
  rw [List.eq_nil_iff_forall_not_mem]
  intro p hp
  rw [mem_rmErase] at hp
  obtain ⟨hp1, h2⟩ := hp
  rw [mem_rmErase] at hp1
  obtain ⟨hm, h1⟩ := hp1
  rcases h p hm with hh | hh
  · exact h1 hh
  · exact h2 hh

/-- Allocating a binary instruction never fails. -/
theorem allocInst_isSome (penv : String → Option Int) (a : AllocSt) (i : Instr)
    (hbin : isBinary i) : ∃ blk a', allocInst penv a i = some (blk, a') := by
  cases i with
  | lw rs1 off reg => simp [isBinary] at hbin
  | sw rs1 off reg => simp [isBinary] at hbin
  | rop op rd rs1 rs2 =>
    exact ⟨(allocRop a op rd rs1 rs2).1, (allocRop a op rd rs1 rs2).2, rfl⟩
  | iop op rd rs1 imm =>
    exact ⟨(allocIop a op rd rs1 imm).1, (allocIop a op rd rs1 imm).2, rfl⟩

/-- Deleting the only three possible keys empties the map. -/
theorem rmErase_triple (m : List (String × String)) (k1 k2 k3 : String)
    (h : ∀ p ∈ m, p.1 = k1 ∨ p.1 = k2 ∨ p.1 = k3) :
    rmErase (rmErase (rmErase m k1) k2) k3 = [] := by
  rw [List.eq_nil_iff_forall_not_mem]
  intro p hp
  rw [mem_rmErase] at hp
  obtain ⟨hp1, h3⟩ := hp
  rw [mem_rmErase] at hp1
  obtain ⟨hp2, h2⟩ := hp1
  rw [mem_rmErase] at hp2
  obtain ⟨hm, h1⟩ := hp2
  rcases h p hm with hh | hh | hh
  · exact h1 hh
  · exact h2 hh
  · exact h3 hh

/-- Reserved and general-purpose registers are the physical names. -/
theorem mem_phys_of {x : String} (h : x ∈ otherRegs ∨ x ∈ usableRegs) : x ∈ physRegs := by
  simp only [physRegs, List.mem_append]
  exact h

/-- Deleting the only possible key empties the map. -/
theorem rmErase_single (m : List (String × String)) (k : String)
    (h : ∀ p ∈ m, p.1 = k) : rmErase m k = [] := by
  rw [List.eq_nil_iff_forall_not_mem]
  intro p hp
  rw [mem_rmErase] at hp
  exact hp.2 (h p hp.1)

/-- One allocation step on a binary instruction, started with an empty
`reg_map`, ends with an empty `reg_map` and emits only instructions whose
register operands are physical names. -/
theorem allocInst_syn (penv : String → Option Int) (a : AllocSt) (i : Instr)
    (hbin : isBinary i) (hempty : a.reg_map = []) (blk : List Instr) (a' : AllocSt)
    (h : allocInst penv a i = some (blk, a')) :
    a'.reg_map = [] ∧ ∀ j ∈ blk, ∀ x ∈ regNames j, x ∈ physRegs := by
  cases i with
  | lw rs1 off reg => simp [isBinary] at hbin
  | sw rs1 off reg => simp [isBinary] at hbin
  | rop op rd rs1 rs2 =>
    simp only [allocInst, Option.some_inj] at h
    rcases hg1 : getVarName a rs1 with ⟨nrs1, i1, a1⟩
    obtain ⟨S1r, S1ld, S1len, S1vals, S1keys, S1oth⟩ :=
      getVarName_syn a rs1 _ _ _ hg1 (by rw [hempty]; simp)
        (by rw [hempty]; intro r hr; cases hr)
    rw [hempty] at S1keys
    have hlen1 : a1.reg_map.length ≤ 1 := by simpa [hempty] using S1len
    rcases hg2 : getVarName a1 rs2 with ⟨nrs2, i2, a2⟩
    obtain ⟨S2r, S2ld, S2len, S2vals, S2keys, S2oth⟩ :=
      getVarName_syn a1 rs2 _ _ _ hg2 (by omega) S1vals
    have hlen2 : a2.reg_map.length ≤ 2 := by omega
    have hkeys2 : ∀ p ∈ a2.reg_map, p.1 = rs1 ∨ p.1 = rs2 := by
      intro p hp
      rcases S2keys p hp with hh | hh
      · exact Or.inr hh
      · rcases S1keys p hh with hh2 | hh2
        · exact Or.inl hh2
        · cases hh2
    by_cases hres : nrs1 ∈ otherRegs ∨ nrs2 ∈ otherRegs
    · rcases hg3 : getVarName a2 rd with ⟨nrd, i3, a3⟩
      obtain ⟨S3r, S3ld, S3len, S3vals, S3keys, S3oth⟩ :=
        getVarName_syn a2 rd _ _ _ hg3 (by omega) S2vals
      have hkeys3 : ∀ p ∈ a3.reg_map, p.1 = rd ∨ p.1 = rs1 ∨ p.1 = rs2 := by
        intro p hp
        rcases S3keys p hp with hh | hh
        · exact Or.inl hh
        · exact Or.inr (hkeys2 p hh)
      by_cases hrd : nrd ∈ otherRegs
      · simp only [allocRop, hg1, hg2, hg3, if_pos hres, if_neg (not_not_intro hrd)] at h
        injection h with hb ha
        subst hb; subst ha
        refine ⟨?_, ?_⟩
        · show rmErase (rmErase a3.reg_map rs1) rs2 = []
          rw [S3oth hrd]
          exact rmErase_pair _ _ _ hkeys2
        · intro j hj
          simp only [List.mem_append, List.mem_singleton, Option.toList_none, List.not_mem_nil,
            or_false, false_or, or_assoc] at hj
          rcases hj with hj | hj | hj | hj
          · exact S1ld j hj
          · exact S2ld j hj
          · exact S3ld j hj
          · subst hj
            intro x hx
            simp only [regNames, List.mem_cons, List.not_mem_nil, or_false] at hx
            rcases hx with rfl | rfl | rfl
            · exact mem_phys_of S3r
            · exact mem_phys_of S1r
            · exact mem_phys_of S2r
      · simp only [allocRop, hg1, hg2, hg3, if_pos hres, if_pos hrd] at h
        injection h with hb ha
        subst hb; subst ha
        refine ⟨?_, ?_⟩
        · show rmErase (rmErase (rmErase a3.reg_map rd) rs1) rs2 = []
          exact rmErase_triple _ _ _ _ hkeys3
        · intro j hj
          simp only [List.mem_append, List.mem_singleton, Option.toList_none, List.not_mem_nil,
            or_false, false_or, or_assoc] at hj
          rcases hj with hj | hj | hj | hj | hj
          · exact S1ld j hj
          · exact S2ld j hj
          · exact S3ld j hj
          · subst hj
            intro x hx
            simp only [regNames, List.mem_cons, List.not_mem_nil, or_false] at hx
            rcases hx with rfl | rfl | rfl
            · exact mem_phys_of S3r
            · exact mem_phys_of S1r
            · exact mem_phys_of S2r
          · subst hj
            intro x hx
            simp only [regNames, List.mem_cons, List.not_mem_nil, or_false] at hx
            rcases hx with rfl | rfl
            · exact mem_phys_of (Or.inl (by decide))
            · exact mem_phys_of (Or.inr (S3r.resolve_left hrd))
    · push_neg at hres
      obtain ⟨hres1, hres2⟩ := hres
      have hOr : ¬(nrs1 ∈ otherRegs ∨ nrs2 ∈ otherRegs) := not_or.mpr ⟨hres1, hres2⟩
      simp only [allocRop, hg1, hg2, if_neg hOr, if_pos hres1] at h
      injection h with hb ha
      subst hb; subst ha
      refine ⟨?_, ?_⟩
      · show rmErase (rmErase (rmErase a2.reg_map rd) rs1) rs2 = []
        refine rmErase_triple _ _ _ _ ?_
        intro p hp
        exact Or.inr (hkeys2 p hp)
      · intro j hj
        simp only [List.mem_append, List.mem_singleton, Option.toList_none, List.not_mem_nil,
            or_false, false_or, or_assoc] at hj
        rcases hj with hj | hj | hj | hj
        · exact S1ld j hj
        · exact S2ld j hj
        · subst hj
          intro x hx
          simp only [regNames, List.mem_cons, List.not_mem_nil, or_false] at hx
          rcases hx with rfl | rfl | rfl
          · exact mem_phys_of (Or.inr (S1r.resolve_left hres1))
          · exact mem_phys_of S1r
          · exact mem_phys_of S2r
        · subst hj
          intro x hx
          simp only [regNames, List.mem_cons, List.not_mem_nil, or_false] at hx
          rcases hx with rfl | rfl
          · exact mem_phys_of (Or.inl (by decide))
          · exact mem_phys_of (Or.inr (S1r.resolve_left hres1))
  | iop op rd rs1 imm =>
    simp only [allocInst, Option.some_inj] at h
    rcases hg1 : getVarName a rs1 with ⟨nrs1, i1, a1⟩
    obtain ⟨S1r, S1ld, S1len, S1vals, S1keys, S1oth⟩ :=
      getVarName_syn a rs1 _ _ _ hg1 (by rw [hempty]; simp)
        (by rw [hempty]; intro r hr; cases hr)
    rw [hempty] at S1keys
    have hlen1 : a1.reg_map.length ≤ 1 := by simpa [hempty] using S1len
    have hkeys1 : ∀ p ∈ a1.reg_map, p.1 = rs1 := by
      intro p hp
      rcases S1keys p hp with hh | hh
      · exact hh
      · cases hh
    by_cases hres : nrs1 ∈ otherRegs
    · rcases hg3 : getVarName a1 rd with ⟨nrd, i3, a3⟩
      obtain ⟨S3r, S3ld, S3len, S3vals, S3keys, S3oth⟩ :=
        getVarName_syn a1 rd _ _ _ hg3 (by omega) S1vals
      have hkeys3 : ∀ p ∈ a3.reg_map, p.1 = rd ∨ p.1 = rs1 := by
        intro p hp
        rcases S3keys p hp with hh | hh
        · exact Or.inl hh
        · exact Or.inr (hkeys1 p hh)
      by_cases hrd : nrd ∈ otherRegs
      · simp only [allocIop, hg1, hg3, if_pos hres, if_neg (not_not_intro hrd)] at h
        injection h with hb ha
        subst hb; subst ha
        refine ⟨?_, ?_⟩
        · show rmErase a3.reg_map rs1 = []
          rw [S3oth hrd]
          exact rmErase_single _ _ hkeys1
        · intro j hj
          simp only [List.mem_append, List.mem_singleton, Option.toList_none, List.not_mem_nil,
            or_false, false_or, or_assoc] at hj
          rcases hj with hj | hj | hj
          · exact S1ld j hj
          · exact S3ld j hj
          · subst hj
            intro x hx
            simp only [regNames, List.mem_cons, List.not_mem_nil, or_false] at hx
            rcases hx with rfl | rfl
            · exact mem_phys_of S3r
            · exact mem_phys_of S1r
      · simp only [allocIop, hg1, hg3, if_pos hres, if_pos hrd] at h
        injection h with hb ha
        subst hb; subst ha
        refine ⟨?_, ?_⟩
        · show rmErase (rmErase a3.reg_map rd) rs1 = []
          exact rmErase_pair _ _ _ hkeys3
        · intro j hj
          simp only [List.mem_append, List.mem_singleton, Option.toList_none, List.not_mem_nil,
            or_false, false_or, or_assoc] at hj
          rcases hj with hj | hj | hj | hj
          · exact S1ld j hj
          · exact S3ld j hj
          · subst hj
            intro x hx
            simp only [regNames, List.mem_cons, List.not_mem_nil, or_false] at hx
            rcases hx with rfl | rfl
            · exact mem_phys_of S3r
            · exact mem_phys_of S1r
          · subst hj
            intro x hx
            simp only [regNames, List.mem_cons, List.not_mem_nil, or_false] at hx
            rcases hx with rfl | rfl
            · exact mem_phys_of (Or.inl (by decide))
            · exact mem_phys_of (Or.inr (S3r.resolve_left hrd))
    · simp only [allocIop, hg1, if_neg hres, if_pos hres] at h
      injection h with hb ha
      subst hb; subst ha
      refine ⟨?_, ?_⟩
      · show rmErase (rmErase a1.reg_map rd) rs1 = []
        refine rmErase_pair _ _ _ ?_
        intro p hp
        exact Or.inr (hkeys1 p hp)
      · intro j hj
        simp only [List.mem_append, List.mem_singleton, Option.toList_none, List.not_mem_nil,
            or_false, false_or, or_assoc] at hj
        rcases hj with hj | hj | hj
        · exact S1ld j hj
        · subst hj
          intro x hx
          simp only [regNames, List.mem_cons, List.not_mem_nil, or_false] at hx
          rcases hx with rfl | rfl
          · exact mem_phys_of (Or.inr (S1r.resolve_left hres))
          · exact mem_phys_of S1r
        · subst hj
          intro x hx
          simp only [regNames, List.mem_cons, List.not_mem_nil, or_false] at hx
          rcases hx with rfl | rfl
          · exact mem_phys_of (Or.inl (by decide))
          · exact mem_phys_of (Or.inr (S1r.resolve_left hres))

/-- No physical name is the exhaustion marker. -/
theorem physRegs_ne_none : ∀ x ∈ physRegs, ¬ x = noneReg := by decide

/-- The allocation pass over binary instructions: it always succeeds,
returns `reg_map` to empty, and its whole output stream mentions only
physical register names. -/
theorem allocSeq_syn : ∀ (Q : List Instr) (penv : String → Option Int) (a : AllocSt),
    (∀ i ∈ Q, isBinary i) → a.reg_map = [] →
    ∃ out a', allocSeq penv a Q = some (out, a') ∧ a'.reg_map = [] ∧
      ∀ j ∈ out, ∀ x ∈ regNames j, x ∈ physRegs := by
  intro Q
  induction Q with
  | nil =>
    intro penv a hb he
    exact ⟨[], a, rfl, he, by simp⟩
  | cons i rest ih =>
    intro penv a hb he
    obtain ⟨blk, a1, hi⟩ := allocInst_isSome penv a i (hb i (List.mem_cons_self _ _))
    obtain ⟨he1, hcl1⟩ := allocInst_syn penv a i (hb i (List.mem_cons_self _ _)) he blk a1 hi
    obtain ⟨out, a2, hs, he2, hcl2⟩ :=
      ih penv a1 (fun j hj => hb j (List.mem_cons_of_mem _ hj)) he1
    refine ⟨blk ++ out, a2, ?_, he2, ?_⟩
    · simp only [allocSeq, hi, hs]
    · intro j hj
      rcases List.mem_append.mp hj with hj | hj
      · exact hcl1 j hj
      · exact hcl2 j hj

/-- Claim C6 (amended): physical-register closure holds for every program
of binary/binary-immediate instructions: allocation completes and every
register-valued operand of every instruction in the output stream is one
of the seven fixed physical names, so no virtual name (and no exhaustion
marker) remains. -/
theorem c6_binary_closure (N : Nat) (env0 : String → Option Int) (P : List Instr)
    (hbin : ∀ i ∈ P, isBinary i) :
    ∃ out aF, allocate N env0 P = some (out, aF) ∧
      ∀ j ∈ out, ∀ x ∈ regNames j, x ∈ physRegs := by
  obtain ⟨out, aF, hs, _, hcl⟩ := allocSeq_syn P (initState N env0).env initAlloc hbin rfl
  exact ⟨out, aF, hs, hcl⟩

/-- Claim C5 (amended): for programs made only of the spilling opcodes
(`addi`, `add`, `sub`, `mul`, `div`, `xor`, `xori`, `slt`, `slti`),
register exhaustion is unreachable: the pass completes with `reg_map`
empty again (it is empty at every instruction boundary), and the `None`
marker that `next_var_name` would produce on exhaustion never appears in
the rewritten stream. -/
theorem c5_binary_no_exhaustion (N : Nat) (env0 : String → Option Int) (P : List Instr)
    (hbin : ∀ i ∈ P, isBinary i) :
    ∃ out aF, allocate N env0 P = some (out, aF) ∧ aF.reg_map = [] ∧
      ∀ j ∈ out, ∀ x ∈ regNames j, ¬ x = noneReg := by
  obtain ⟨out, aF, hs, he, hcl⟩ := allocSeq_syn P (initState N env0).env initAlloc hbin rfl
  exact ⟨out, aF, hs, he, fun j hj x hx => physRegs_ne_none x (hcl j hj x hx)⟩

/-- Witness for `c5_binary_no_exhaustion`: a concrete one-instruction
program allocates successfully. -/
theorem c5_binary_no_exhaustion_witness :
    (allocate 1000 envEmpty [Instr.iop .addi "b" "x0" 3]).isSome = true := by
  obtain ⟨out, aF, h, _, _⟩ :=
    c5_binary_no_exhaustion 1000 envEmpty [Instr.iop .addi "b" "x0" 3] (by decide)
  rw [h]
  rfl

/-- Witness for `c6_binary_closure`: a concrete two-instruction program
allocates successfully. -/
theorem c6_binary_closure_witness :
    (allocate 1000 envEmpty [Instr.iop .addi "b" "x0" 3, Instr.rop .add "c" "b" "b"]).isSome =
      true := by
  obtain ⟨out, aF, h, _⟩ :=
    c6_binary_closure 1000 envEmpty [Instr.iop .addi "b" "x0" 3, Instr.rop .add "c" "b" "b"]
      (by decide)
  rw [h]
  rfl

/-- Reading back a register just written (the zero register excepted). -/
theorem env_setReg_same (st : MState) (x : String) (v : Int) (hx : ¬ x = "x0") :
    (setReg st x v).env x = some v := by
  simp [setReg, hx]

/-- A register write leaves every other register unchanged. -/
theorem env_setReg_other (st : MState) (x : String) (v : Int) (y : String) (hy : ¬ y = x) :
    (setReg st x v).env y = st.env y := by
  by_cases hx : x = "x0"
  · simp [setReg, hx]
  · simp [setReg, hx, hy]

/-- No register write changes the zero register. -/
theorem env_setReg_x0 (st : MState) (x : String) (v : Int) :
    (setReg st x v).env "x0" = st.env "x0" := by
  by_cases hx : x = "x0"
  · simp [setReg, hx]
  · exact env_setReg_other st x v "x0" (fun hh => hx hh.symm)

/-- Register writes do not touch memory. -/
theorem mem_setReg (st : MState) (x : String) (v : Int) :
    (setReg st x v).mem = st.mem := by
  by_cases hx : x = "x0" <;> simp [setReg, hx]

/-- Memory writes do not touch registers. -/
theorem env_setMem (st : MState) (a v : Int) : (setMem st a v).env = st.env := rfl

/-- Reading back a memory cell just written. -/
theorem mem_setMem_same (st : MState) (a v : Int) : (setMem st a v).mem a = v := by
  simp [setMem]

/-- A memory write leaves every other cell unchanged. -/
theorem mem_setMem_other (st : MState) (a v b : Int) (hb : ¬ b = a) :
    (setMem st a v).mem b = st.mem b := by
  simp [setMem, hb]

/-- Straight-line execution of a concatenation runs the two halves in
sequence. -/
theorem evalInsts_append (N : Nat) (A B : List Instr) (st : MState) :
    evalInsts N (A ++ B) st = (evalInsts N A st).bind (evalInsts N B) := by
  induction A generalizing st with
  | nil => rfl
  | cons i rest ih =>
    simp only [List.cons_append, evalInsts]
    cases step N st i with
    | none => rfl
    | some st2 => simp [ih st2]

/-- Inversion of a successful register-register step. -/
theorem step_rop_inv (N : Nat) (stU : MState) (op : BOp) (rd rs1 rs2 : String)
    (stU' : MState) (h : step N stU (.rop op rd rs1 rs2) = some stU') :
    ∃ x1 x2 y, stU.env rs1 = some x1 ∧ stU.env rs2 = some x2 ∧
      semBin op x1 x2 = some y ∧ stU' = setReg stU rd y := by
  simp only [step, getVal] at h
  split at h
  · cases h
  · rename_i x1 h1
    split at h
    · cases h
    · rename_i x2 h2
      split at h
      · cases h
      · rename_i y h3
        injection h with h
        exact ⟨x1, x2, y, h1, h2, h3, h.symm⟩

/-- Inversion of a successful register-immediate step. -/
theorem step_iop_inv (N : Nat) (stU : MState) (op : IOp) (rd rs1 : String) (imm : Int)
    (stU' : MState) (h : step N stU (.iop op rd rs1 imm) = some stU') :
    ∃ x1, stU.env rs1 = some x1 ∧ stU' = setReg stU rd (semImm op x1 imm) := by
  simp only [step, getVal] at h
  split at h
  · cases h
  · rename_i x1 h1
    injection h with h
    exact ⟨x1, h1, h.symm⟩

/-- A successful lookup exhibits a map entry. -/
theorem rmLookup_mem (m : List (String × String)) (x r : String)
    (h : rmLookup m x = some r) : (x, r) ∈ m := by
  induction m with
  | nil => cases h
  | cons p rest ih =>
    obtain ⟨k', v'⟩ := p
    simp only [rmLookup] at h
    by_cases hx : x = k'
    · rw [if_pos hx] at h
      injection h with h
      subst hx; subst h
      exact List.mem_cons_self _ _
    · rw [if_neg hx] at h
      exact List.mem_cons_of_mem _ (ih h)

/-- Looking up the key just assigned. -/
theorem rmLookup_rmInsert_self (m : List (String × String)) (k v : String) :
    rmLookup (rmInsert m k v) k = some v := by
  simp [rmInsert, rmLookup]

/-- Assignment leaves other keys' lookups unchanged. -/
theorem rmLookup_rmInsert_other (m : List (String × String)) (k v x : String)
    (hx : ¬ x = k) : rmLookup (rmInsert m k v) x = rmLookup m x := by
  simp only [rmInsert, rmLookup, if_neg hx]
  induction m with
  | nil => rfl
  | cons p rest ih =>
    obtain ⟨k', v'⟩ := p
    by_cases hk : k' = k
    · rw [List.filter_cons_of_neg (by simp [hk])]
      simp only [rmLookup]
      rw [if_neg (fun hh => hx (hh.trans hk))]
      exact ih
    · rw [List.filter_cons_of_pos (by simp [hk])]
      simp only [rmLookup]
      by_cases hxk : x = k'
      · rw [if_pos hxk, if_pos hxk]
      · rw [if_neg hxk, if_neg hxk]
        exact ih

/-- Reserved registers are distinct from general-purpose ones. -/
theorem other_ne_usable : ∀ r ∈ otherRegs, ∀ u ∈ usableRegs, ¬ r = u := by decide

/-- Semantic correctness of one source-operand resolution: executing the
emitted reload (if any) yields a machine state in which the resolved
physical register holds the operand's unallocated value, memory and the
reserved registers are untouched, the `reg_map` relation still holds, and
a non-reserved operand is now resident. -/
theorem resolve_sem (N : Nat) (a : AllocSt) (x : String) (nr : String) (ld : Option Instr)
    (a' : AllocSt) (stU stM : MState) (xv : Int)
    (hg : getVarName a x = (nr, ld, a'))
    (hx : stU.env x = some xv)
    (hx0 : stU.env "x0" = some 0)
    (hag : ∀ r ∈ otherRegs, stM.env r = stU.env r)
    (hrm : RMGood a stU stM)
    (hmm : ∀ n v, ¬ n ∈ otherRegs → stU.env n = some v →
      ∃ ad, a.mem_map n = some ad ∧ stM.mem ad = v)
    (hmb : ∀ n ad, a.mem_map n = some ad → 0 ≤ ad ∧ ad ≤ a.mem_counter)
    (hctr : a.mem_counter < (N : Int))
    (hlen : a.reg_map.length ≤ 3) :
    ∃ stM', evalInsts N ld.toList stM = some stM' ∧
      stM'.env nr = some xv ∧
      stM'.mem = stM.mem ∧
      (∀ r ∈ otherRegs, stM'.env r = stM.env r) ∧
      RMGood a' stU stM' ∧
      (¬ x ∈ otherRegs → rmLookup a'.reg_map x = some nr) := by
  have hvlen : (rmValues a.reg_map).length = a.reg_map.length := by simp [rmValues]
  simp only [getVarName] at hg
  split at hg
  · rename_i hv
    injection hg with h1 hg
    injection hg with h2 h3
    subst h1; subst h2; subst h3
    exact ⟨stM, rfl, (hag _ hv).trans hx, rfl, fun r _ => rfl, hrm, fun hc => absurd hv hc⟩
  · rename_i hv
    split at hg
    · rename_i r hl
      injection hg with h1 hg
      injection hg with h2 h3
      subst h1; subst h2; subst h3
      have hp := hrm _ (rmLookup_mem _ _ _ hl)
      exact ⟨stM, rfl, hp.2.trans hx, rfl, fun r _ => rfl, hrm, fun _ => hl⟩
    · rename_i hl
      have hfree := nextFree_usable (rmValues a.reg_map) (by omega)
      have hfreeNotMem : ¬ nextVarName a ∈ rmValues a.reg_map := hfree.2
      split at hg
      · rename_i ad hm
        injection hg with h1 hg
        injection hg with h2 h3
        subst h1; subst h2; subst h3
        obtain ⟨ad', hm', hmem⟩ := hmm x xv hv hx
        rw [hm] at hm'
        injection hm' with hm'
        subst hm'
        have hbound := hmb x ad hm
        have hnru : nextVarName a ∈ usableRegs := hfree.1
        have hnrx0 : ¬ nextVarName a = "x0" := by
          intro hh
          rw [hh] at hnru
          exact absurd hnru (by decide)
        have hev : step N stM (.lw "x0" ad (nextVarName a)) =
            some (setReg stM (nextVarName a) (stM.mem ad)) := by
          simp only [step, getVal]
          rw [hag "x0" (by decide), hx0]
          simp only [zero_add]
          rw [if_pos ⟨hbound.1, by omega⟩]
        refine ⟨setReg stM (nextVarName a) (stM.mem ad), ?_, ?_, ?_, ?_, ?_, ?_⟩
        · simp [evalInsts, hev]
        · rw [env_setReg_same _ _ _ hnrx0, hmem]
        · exact mem_setReg _ _ _
        · intro r hr
          exact env_setReg_other _ _ _ _ (other_ne_usable r hr _ hnru)
        · intro p hp
          rcases mem_rmInsert _ _ _ _ hp with hh | hh
          · subst hh
            refine ⟨hnru, ?_⟩
            rw [env_setReg_same _ _ _ hnrx0, hmem, hx]
          · have hold := hrm p hh
            have hpv : p.2 ∈ rmValues a.reg_map := List.mem_map_of_mem Prod.snd hh
            refine ⟨hold.1, ?_⟩
            rw [env_setReg_other stM (nextVarName a) (stM.mem ad) p.2
              (fun heq => hfreeNotMem (heq ▸ hpv))]
            exact hold.2
        · intro _
          exact rmLookup_rmInsert_self _ _ _
      · rename_i hmnone
        obtain ⟨ad, hm', _⟩ := hmm x xv hv hx
        rw [hmnone] at hm'
        cases hm'

/-- Executing the reload (if any) emitted while resolving a destination
preserves memory, the reserved registers, and the registers currently
holding resolved source operands. -/
theorem resolve_dest (N : Nat) (a : AllocSt) (x : String) (nr : String) (ld : Option Instr)
    (a' : AllocSt) (stU stM : MState)
    (hg : getVarName a x = (nr, ld, a'))
    (hx0 : stU.env "x0" = some 0)
    (hag : ∀ r ∈ otherRegs, stM.env r = stU.env r)
    (hmb : ∀ n ad, a.mem_map n = some ad → 0 ≤ ad ∧ ad ≤ a.mem_counter)
    (hctr : a.mem_counter < (N : Int))
    (hlen : a.reg_map.length ≤ 3) :
    ∃ stM', evalInsts N ld.toList stM = some stM' ∧
      stM'.mem = stM.mem ∧
      (∀ r ∈ otherRegs, stM'.env r = stM.env r) ∧
      (∀ r ∈ rmValues a.reg_map, stM'.env r = stM.env r) := by
  have hvlen : (rmValues a.reg_map).length = a.reg_map.length := by simp [rmValues]
  simp only [getVarName] at hg
  split at hg
  · injection hg with h1 hg
    injection hg with h2 h3
    subst h2
    exact ⟨stM, rfl, rfl, fun r _ => rfl, fun r _ => rfl⟩
  · split at hg
    · injection hg with h1 hg
      injection hg with h2 h3
      subst h2
      exact ⟨stM, rfl, rfl, fun r _ => rfl, fun r _ => rfl⟩
    · have hfree := nextFree_usable (rmValues a.reg_map) (by omega)
      have hfreeNotMem : ¬ nextVarName a ∈ rmValues a.reg_map := hfree.2
      have hnru : nextVarName a ∈ usableRegs := hfree.1
      split at hg
      · rename_i ad hm
        injection hg with h1 hg
        injection hg with h2 h3
        subst h2
        have hbound := hmb x ad hm
        have hev : step N stM (.lw "x0" ad (nextVarName a)) =
            some (setReg stM (nextVarName a) (stM.mem ad)) := by
          simp only [step, getVal]
          rw [hag "x0" (by decide), hx0]
          simp only [zero_add]
          rw [if_pos ⟨hbound.1, by omega⟩]
        refine ⟨setReg stM (nextVarName a) (stM.mem ad), by simp [evalInsts, hev],
          mem_setReg _ _ _, ?_, ?_⟩
        · intro r hr
          exact env_setReg_other _ _ _ _ (other_ne_usable r hr _ hnru)
        · intro r hr
          exact env_setReg_other stM (nextVarName a) (stM.mem ad) r
            (fun heq => hfreeNotMem (heq ▸ hr))
      · injection hg with h1 hg
        injection hg with h2 h3
        subst h2
        exact ⟨stM, rfl, rfl, fun r _ => rfl, fun r _ => rfl⟩

/-- Resolving a reserved register is the identity. -/
theorem getVarName_reserved (a : AllocSt) (v : String) (hv : v ∈ otherRegs) :
    getVarName a v = (v, none, a) := by
  simp [getVarName, hv]

/-- Resolving one operand keeps every other resident binding. -/
theorem getVarName_preserves_lookup (a : AllocSt) (v x r : String)
    (hx : rmLookup a.reg_map x = some r) :
    rmLookup (getVarName a v).2.2.reg_map x = some r := by
  simp only [getVarName]
  split
  · exact hx
  · split
    · exact hx
    · have hxv : ¬ x = v := by
        rename_i hl
        intro hh
        rw [hh] at hx
        rw [hx] at hl
        cases hl
      split
      · show rmLookup (rmInsert a.reg_map v (nextVarName a)) x = some r
        rw [rmLookup_rmInsert_other _ _ _ _ hxv]
        exact hx
      · show rmLookup (rmInsert a.reg_map v (nextVarName a)) x = some r
        rw [rmLookup_rmInsert_other _ _ _ _ hxv]
        exact hx

/-- If a resolution returns a reserved register, the operand was that
reserved register and nothing changed (resident values are always
general-purpose). -/
theorem getVarName_other_imp (a : AllocSt) (v nr : String) (ld : Option Instr) (a' : AllocSt)
    (hg : getVarName a v = (nr, ld, a'))
    (hvals : ∀ r ∈ rmValues a.reg_map, r ∈ usableRegs) (hlen : a.reg_map.length ≤ 3)
    (ho : nr ∈ otherRegs) : nr = v ∧ ld = none ∧ a' = a := by
  simp only [getVarName] at hg
  split at hg
  · injection hg with h1 hg
    injection hg with h2 h3
    exact ⟨h1.symm, h2.symm, h3.symm⟩
  · split at hg
    · rename_i r hl
      injection hg with h1 hg
      subst h1
      exact absurd ho (usable_not_other _ (hvals _ (rmLookup_mem_values _ _ _ hl)))
    · have hfree := nextFree_usable (rmValues a.reg_map) (by simp [rmValues]; omega)
      split at hg
      · injection hg with h1 hg
        subst h1
        exact absurd ho (usable_not_other _ hfree.1)
      · injection hg with h1 hg
        subst h1
        exact absurd ho (usable_not_other _ hfree.1)


/-- One-step simulation: rewriting one binary instruction with a
non-reserved destination preserves the simulation invariant — executing
the emitted block on the allocated machine mirrors the unallocated step,
and the spill counter advances by at most one. -/
theorem allocInst_sim (N : Nat) (penv : String → Option Int) (a : AllocSt)
    (i : Instr) (stU stA stU' : MState)
    (hbin : isBinary i)
    (hrdn : ¬ rdOf i ∈ otherRegs)
    (hinv : SimInv N stU stA a)
    (hbud : a.mem_counter + 1 < (N : Int))
    (hstep : step N stU i = some stU')
    (blk : List Instr) (a' : AllocSt)
    (h : allocInst penv a i = some (blk, a')) :
    ∃ stA', evalInsts N blk stA = some stA' ∧ SimInv N stU' stA' a' ∧
      a.mem_counter ≤ a'.mem_counter ∧ a'.mem_counter ≤ a.mem_counter + 1 := by
  obtain ⟨hre, _⟩ := allocInst_syn penv a i hbin hinv.1 blk a' h
  obtain ⟨hempty, hx0, hag, hcb, hmb, hmm⟩ := hinv
  cases i with
  | lw rs1 off reg => simp [isBinary] at hbin
  | sw rs1 off reg => simp [isBinary] at hbin
  | rop op rd rs1 rs2 =>
    obtain ⟨x1, x2, y, hv1, hv2, hsem, hstU'⟩ := step_rop_inv N stU op rd rs1 rs2 stU' hstep
    simp only [allocInst, Option.some_inj] at h
    rcases hg1 : getVarName a rs1 with ⟨nrs1, i1, a1⟩
    obtain ⟨S1r, S1ld, S1len, S1vals, S1keys, S1oth⟩ :=
      getVarName_syn a rs1 _ _ _ hg1 (by rw [hempty]; simp)
        (by rw [hempty]; intro r hr; cases hr)
    have hlen1 : a1.reg_map.length ≤ 1 := by simpa [hempty] using S1len
    have hmm1eq := getVarName_mem_map a rs1
    rw [hg1] at hmm1eq
    obtain ⟨stM1, hev1, henv1, hmem1, hoth1, hrm1, hlk1⟩ :=
      resolve_sem N a rs1 _ _ _ stU stA x1 hg1 hv1 hx0 hag
        (fun p hp => by rw [hempty] at hp; cases hp) hmm hmb hcb.2 (by rw [hempty]; simp)
    rcases hg2 : getVarName a1 rs2 with ⟨nrs2, i2, a2⟩
    obtain ⟨S2r, S2ld, S2len, S2vals, S2keys, S2oth⟩ :=
      getVarName_syn a1 rs2 _ _ _ hg2 (by omega) S1vals
    have hlen2 : a2.reg_map.length ≤ 2 := by omega
    have hmm2eq := getVarName_mem_map a1 rs2
    rw [hg2] at hmm2eq
    have hag1 : ∀ r ∈ otherRegs, stM1.env r = stU.env r :=
      fun r hr => (hoth1 r hr).trans (hag r hr)
    have hmmA1 : ∀ n v, ¬ n ∈ otherRegs → stU.env n = some v →
        ∃ ad, a1.mem_map n = some ad ∧ stM1.mem ad = v := by
      intro n v hn hv
      obtain ⟨ad, h1, h2⟩ := hmm n v hn hv
      exact ⟨ad, by rw [hmm1eq.1]; exact h1, by rw [hmem1]; exact h2⟩
    have hmbA1 : ∀ n ad, a1.mem_map n = some ad → 0 ≤ ad ∧ ad ≤ a1.mem_counter := by
      intro n ad had
      rw [hmm1eq.1] at had
      rw [hmm1eq.2]
      exact hmb n ad had
    obtain ⟨stM2, hev2, henv2, hmem2, hoth2, hrm2, hlk2⟩ :=
      resolve_sem N a1 rs2 _ _ _ stU stM1 x2 hg2 hv2 hx0 hag1 hrm1 hmmA1 hmbA1
        (by rw [hmm1eq.2]; exact hcb.2) (by omega)
    have hagM2 : ∀ r ∈ otherRegs, stM2.env r = stU.env r :=
      fun r hr => (hoth2 r hr).trans (hag1 r hr)
    have hmemM2 : stM2.mem = stA.mem := by rw [hmem2, hmem1]
    have hctr2 : a2.mem_counter = a.mem_counter := by rw [hmm2eq.2, hmm1eq.2]
    have hmap2 : a2.mem_map = a.mem_map := by rw [hmm2eq.1, hmm1eq.1]
    have hmmA2 : ∀ n v, ¬ n ∈ otherRegs → stU.env n = some v →
        ∃ ad, a2.mem_map n = some ad ∧ stM2.mem ad = v := by
      intro n v hn hv
      obtain ⟨ad, h1, h2⟩ := hmm n v hn hv
      exact ⟨ad, by rw [hmap2]; exact h1, by rw [hmemM2]; exact h2⟩
    have hmbA2 : ∀ n ad, a2.mem_map n = some ad → 0 ≤ ad ∧ ad ≤ a2.mem_counter := by
      intro n ad had
      rw [hmap2] at had
      rw [hctr2]
      exact hmb n ad had
    have hentry1 : (rs1 ∈ otherRegs ∧ nrs1 = rs1) ∨ rmLookup a2.reg_map rs1 = some nrs1 := by
      by_cases hr1 : rs1 ∈ otherRegs
      · left
        exact ⟨hr1, congrArg Prod.fst (hg1.symm.trans (getVarName_reserved a rs1 hr1))⟩
      · right
        have hl1 := hlk1 hr1
        have hpre := getVarName_preserves_lookup a1 rs2 rs1 nrs1 hl1
        rw [hg2] at hpre
        exact hpre
    have hentry2 : (rs2 ∈ otherRegs ∧ nrs2 = rs2) ∨ rmLookup a2.reg_map rs2 = some nrs2 := by
      by_cases hr2 : rs2 ∈ otherRegs
      · left
        exact ⟨hr2, congrArg Prod.fst (hg2.symm.trans (getVarName_reserved a1 rs2 hr2))⟩
      · exact Or.inr (hlk2 hr2)
    have hnrs1_at2 : stM2.env nrs1 = some x1 := by
      rcases hentry1 with ⟨hr1, he⟩ | hl2
      · rw [he]
        exact (hoth2 _ hr1).trans ((hoth1 _ hr1).trans ((hag _ hr1).trans hv1))
      · exact (hrm2 _ (rmLookup_mem _ _ _ hl2)).2.trans hv1
    have hnrs2_at2 : stM2.env nrs2 = some x2 := by
      rcases hentry2 with ⟨hr2, he⟩ | hl2
      · rw [he]
        exact (hoth2 _ hr2).trans ((hag1 _ hr2).trans hv2)
      · exact (hrm2 _ (rmLookup_mem _ _ _ hl2)).2.trans hv2
    subst hstU'
    by_cases hres : nrs1 ∈ otherRegs ∨ nrs2 ∈ otherRegs
    · rcases hg3 : getVarName a2 rd with ⟨nrd, i3, a3⟩
      obtain ⟨S3r, S3ld, S3len, S3vals, S3keys, S3oth⟩ :=
        getVarName_syn a2 rd _ _ _ hg3 (by omega) S2vals
      have hmm3eq := getVarName_mem_map a2 rd
      rw [hg3] at hmm3eq
      have hctr3 : a3.mem_counter = a.mem_counter := by rw [hmm3eq.2, hctr2]
      have hmap3 : a3.mem_map = a.mem_map := by rw [hmm3eq.1, hmap2]
      obtain ⟨stM3, hev3, hmem3, hoth3, hvals3⟩ :=
        resolve_dest N a2 rd _ _ _ stU stM2 hg3 hx0 hagM2 hmbA2
          (by rw [hctr2]; exact hcb.2) (by omega)
      have hpres1 : stM3.env nrs1 = some x1 := by
        rcases hentry1 with ⟨hr1, he⟩ | hl2
        · rw [← hnrs1_at2]
          exact hoth3 _ (he ▸ hr1)
        · rw [← hnrs1_at2]
          exact hvals3 _ (List.mem_map_of_mem Prod.snd (rmLookup_mem _ _ _ hl2))
      have hpres2 : stM3.env nrs2 = some x2 := by
        rcases hentry2 with ⟨hr2, he⟩ | hl2
        · rw [← hnrs2_at2]
          exact hoth3 _ (he ▸ hr2)
        · rw [← hnrs2_at2]
          exact hvals3 _ (List.mem_map_of_mem Prod.snd (rmLookup_mem _ _ _ hl2))
      have hop : step N stM3 (.rop op nrd nrs1 nrs2) = some (setReg stM3 nrd y) := by
        simp only [step, getVal, hpres1, hpres2, hsem]
      have hmemM3 : stM3.mem = stA.mem := by rw [hmem3, hmemM2]
      by_cases hrd : nrd ∈ otherRegs
      · obtain ⟨he1, _, _⟩ := getVarName_other_imp a2 rd _ _ _ hg3 S2vals (by omega) hrd
        exact absurd (show rd ∈ otherRegs by rw [← he1]; exact hrd) hrdn
      · have hnrdu : nrd ∈ usableRegs := S3r.resolve_left hrd
        have hnrdx0 : ¬ nrd = "x0" := by
          intro hh
          rw [hh] at hnrdu
          exact absurd hnrdu (by decide)
        have hrdno : ¬ rd ∈ otherRegs := hrdn
        simp only [allocRop, hg1, hg2, hg3, if_pos hres, if_pos hrd] at h
        injection h with hb ha2'
        subst hb
        subst ha2'
        have hsw : step N (setReg stM3 nrd y)
            (.sw "x0" (a3.mem_counter + 1) nrd) =
            some (setMem (setReg stM3 nrd y) (a3.mem_counter + 1) y) := by
          simp only [step, getVal]
          rw [env_setReg_other _ _ _ _ (fun hh => hnrdx0 hh.symm)]
          rw [(hoth3 _ (by decide)).trans (hagM2 _ (by decide)), hx0]
          rw [env_setReg_same _ _ _ hnrdx0]
          simp only [zero_add]
          rw [if_pos ⟨by omega, by omega⟩]
        refine ⟨setMem (setReg stM3 nrd y) (a3.mem_counter + 1) y, ?_, ?_, ?_⟩
        · simp [evalInsts_append, hev1, hev2, hev3, evalInsts, hop, hsw]
        · have hrdx0 : ¬ rd = "x0" := by
            intro hh
            apply hrdno
            rw [hh]
            decide
          refine ⟨hre, by rw [env_setReg_x0]; exact hx0, ?_, ?_, ?_, ?_⟩
          · intro r hr
            rw [show (setMem (setReg stM3 nrd y) (a3.mem_counter + 1) y).env =
              (setReg stM3 nrd y).env from rfl]
            rw [env_setReg_other _ _ _ _ (other_ne_usable r hr _ hnrdu)]
            rw [env_setReg_other stU rd y r (by intro hh; apply hrdno; rw [← hh]; exact hr)]
            exact (hoth3 _ hr).trans (hagM2 _ hr)
          · show -1 ≤ a3.mem_counter + 1 ∧ a3.mem_counter + 1 < (N : Int)
            constructor
            · omega
            · omega
          · intro n ad had
            simp only [cleanup, mmInsert] at had
            by_cases hn : n = rd
            · rw [if_pos hn] at had
              injection had with had
              constructor
              · omega
              · show ad ≤ a3.mem_counter + 1
                omega
            · rw [if_neg hn] at had
              rw [hmap3] at had
              have := hmb n ad had
              constructor
              · omega
              · show ad ≤ a3.mem_counter + 1
                omega
          · intro n v hn hv
            simp only [cleanup, mmInsert]
            by_cases hn' : n = rd
            · subst hn'
              rw [env_setReg_same _ _ _ hrdx0] at hv
              injection hv with hv
              refine ⟨a3.mem_counter + 1, by rw [if_pos rfl], ?_⟩
              rw [mem_setMem_same]
              exact hv
            · rw [env_setReg_other _ _ _ _ hn'] at hv
              obtain ⟨ad, hadm, hadv⟩ := hmm n v hn hv
              have hbd := hmb n ad hadm
              refine ⟨ad, ?_, ?_⟩
              · rw [if_neg hn', hmap3]
                exact hadm
              · rw [mem_setMem_other _ _ _ _ (by omega), mem_setReg, hmemM3]
                exact hadv
        · show a.mem_counter ≤ a3.mem_counter + 1 ∧ a3.mem_counter + 1 ≤ a.mem_counter + 1
          constructor
          · omega
          · omega
    · push_neg at hres
      obtain ⟨hres1, hres2⟩ := hres
      have hOr : ¬(nrs1 ∈ otherRegs ∨ nrs2 ∈ otherRegs) := not_or.mpr ⟨hres1, hres2⟩
      simp only [allocRop, hg1, hg2, if_neg hOr, if_pos hres1] at h
      injection h with hb ha2'
      subst hb
      subst ha2'
      have hnrdu : nrs1 ∈ usableRegs := S1r.resolve_left hres1
      have hnrdx0 : ¬ nrs1 = "x0" := by
        intro hh
        rw [hh] at hnrdu
        exact absurd hnrdu (by decide)
      have hrdx0 : ¬ rd = "x0" := by
        intro hh
        apply hrdn
        show rd ∈ otherRegs
        rw [hh]
        decide
      have hop : step N stM2 (.rop op nrs1 nrs1 nrs2) = some (setReg stM2 nrs1 y) := by
        simp only [step, getVal, hnrs1_at2, hnrs2_at2, hsem]
      have hsw : step N (setReg stM2 nrs1 y)
          (.sw "x0" (a2.mem_counter + 1) nrs1) =
          some (setMem (setReg stM2 nrs1 y) (a2.mem_counter + 1) y) := by
        simp only [step, getVal]
        rw [env_setReg_other _ _ _ _ (fun hh => hnrdx0 hh.symm)]
        rw [hagM2 _ (by decide), hx0]
        rw [env_setReg_same _ _ _ hnrdx0]
        simp only [zero_add]
        rw [if_pos ⟨by omega, by omega⟩]
      refine ⟨setMem (setReg stM2 nrs1 y) (a2.mem_counter + 1) y, ?_, ?_, ?_⟩
      · simp [evalInsts_append, hev1, hev2, evalInsts, hop, hsw]
      · refine ⟨hre, by rw [env_setReg_x0]; exact hx0, ?_, ?_, ?_, ?_⟩
        · intro r hr
          rw [show (setMem (setReg stM2 nrs1 y) (a2.mem_counter + 1) y).env =
            (setReg stM2 nrs1 y).env from rfl]
          rw [env_setReg_other _ _ _ _ (other_ne_usable r hr _ hnrdu)]
          rw [env_setReg_other stU rd y r (by intro hh; apply hrdn; show rd ∈ otherRegs; rw [← hh]; exact hr)]
          exact hagM2 _ hr
        · show -1 ≤ a2.mem_counter + 1 ∧ a2.mem_counter + 1 < (N : Int)
          constructor
          · omega
          · omega
        · intro n ad had
          simp only [cleanup, mmInsert] at had
          by_cases hn : n = rd
          · rw [if_pos hn] at had
            injection had with had
            constructor
            · omega
            · show ad ≤ a2.mem_counter + 1
              omega
          · rw [if_neg hn] at had
            rw [hmap2] at had
            have := hmb n ad had
            constructor
            · omega
            · show ad ≤ a2.mem_counter + 1
              omega
        · intro n v hn hv
          simp only [cleanup, mmInsert]
          by_cases hn' : n = rd
          · subst hn'
            rw [env_setReg_same _ _ _ hrdx0] at hv
            injection hv with hv
            refine ⟨a2.mem_counter + 1, by rw [if_pos rfl], ?_⟩
            rw [mem_setMem_same]
            exact hv
          · rw [env_setReg_other _ _ _ _ hn'] at hv
            obtain ⟨ad, hadm, hadv⟩ := hmm n v hn hv
            have hbd := hmb n ad hadm
            refine ⟨ad, ?_, ?_⟩
            · rw [if_neg hn', hmap2]
              exact hadm
            · rw [mem_setMem_other _ _ _ _ (by omega), mem_setReg, hmemM2]
              exact hadv
      · show a.mem_counter ≤ a2.mem_counter + 1 ∧ a2.mem_counter + 1 ≤ a.mem_counter + 1
        constructor
        · omega
        · omega
  | iop op rd rs1 imm =>
    obtain ⟨x1, hv1, hstU'⟩ := step_iop_inv N stU op rd rs1 imm stU' hstep
    simp only [allocInst, Option.some_inj] at h
    rcases hg1 : getVarName a rs1 with ⟨nrs1, i1, a1⟩
    obtain ⟨S1r, S1ld, S1len, S1vals, S1keys, S1oth⟩ :=
      getVarName_syn a rs1 _ _ _ hg1 (by rw [hempty]; simp)
        (by rw [hempty]; intro r hr; cases hr)
    have hlen1 : a1.reg_map.length ≤ 1 := by simpa [hempty] using S1len
    have hmm1eq := getVarName_mem_map a rs1
    rw [hg1] at hmm1eq
    obtain ⟨stM1, hev1, henv1, hmem1, hoth1, hrm1, hlk1⟩ :=
      resolve_sem N a rs1 _ _ _ stU stA x1 hg1 hv1 hx0 hag
        (fun p hp => by rw [hempty] at hp; cases hp) hmm hmb hcb.2 (by rw [hempty]; simp)
    have hag1 : ∀ r ∈ otherRegs, stM1.env r = stU.env r :=
      fun r hr => (hoth1 r hr).trans (hag r hr)
    have hctr1 : a1.mem_counter = a.mem_counter := hmm1eq.2
    have hmap1 : a1.mem_map = a.mem_map := hmm1eq.1
    have hmbA1 : ∀ n ad, a1.mem_map n = some ad → 0 ≤ ad ∧ ad ≤ a1.mem_counter := by
      intro n ad had
      rw [hmap1] at had
      rw [hctr1]
      exact hmb n ad had
    have hentry1 : (rs1 ∈ otherRegs ∧ nrs1 = rs1) ∨ rmLookup a1.reg_map rs1 = some nrs1 := by
      by_cases hr1 : rs1 ∈ otherRegs
      · exact Or.inl ⟨hr1, congrArg Prod.fst (hg1.symm.trans (getVarName_reserved a rs1 hr1))⟩
      · exact Or.inr (hlk1 hr1)
    subst hstU'
    have hrdx0 : ¬ rd = "x0" := by
      intro hh
      apply hrdn
      show rd ∈ otherRegs
      rw [hh]
      decide
    by_cases hres : nrs1 ∈ otherRegs
    · rcases hg3 : getVarName a1 rd with ⟨nrd, i3, a3⟩
      obtain ⟨S3r, S3ld, S3len, S3vals, S3keys, S3oth⟩ :=
        getVarName_syn a1 rd _ _ _ hg3 (by omega) S1vals
      have hmm3eq := getVarName_mem_map a1 rd
      rw [hg3] at hmm3eq
      have hctr3 : a3.mem_counter = a.mem_counter := by rw [hmm3eq.2, hctr1]
      have hmap3 : a3.mem_map = a.mem_map := by rw [hmm3eq.1, hmap1]
      obtain ⟨stM3, hev3, hmem3, hoth3, hvals3⟩ :=
        resolve_dest N a1 rd _ _ _ stU stM1 hg3 hx0 hag1 hmbA1
          (by rw [hctr1]; exact hcb.2) (by omega)
      have hpres1 : stM3.env nrs1 = some x1 := by
        rcases hentry1 with ⟨hr1, he⟩ | hl2
        · rw [← henv1]
          exact hoth3 _ (he ▸ hr1)
        · rw [← henv1]
          exact hvals3 _ (List.mem_map_of_mem Prod.snd (rmLookup_mem _ _ _ hl2))
      have hop : step N stM3 (.iop op nrd nrs1 imm) =
          some (setReg stM3 nrd (semImm op x1 imm)) := by
        simp only [step, getVal, hpres1]
      have hmemM3 : stM3.mem = stA.mem := by rw [hmem3, hmem1]
      by_cases hrd : nrd ∈ otherRegs
      · obtain ⟨he1, _, _⟩ := getVarName_other_imp a1 rd _ _ _ hg3 S1vals (by omega) hrd
        exact absurd (show rd ∈ otherRegs by rw [← he1]; exact hrd) hrdn
      · have hnrdu : nrd ∈ usableRegs := S3r.resolve_left hrd
        have hnrdx0 : ¬ nrd = "x0" := by
          intro hh
          rw [hh] at hnrdu
          exact absurd hnrdu (by decide)
        simp only [allocIop, hg1, hg3, if_pos hres, if_pos hrd] at h
        injection h with hb ha2'
        subst hb
        subst ha2'
        have hsw : step N (setReg stM3 nrd (semImm op x1 imm))
            (.sw "x0" (a3.mem_counter + 1) nrd) =
            some (setMem (setReg stM3 nrd (semImm op x1 imm)) (a3.mem_counter + 1)
              (semImm op x1 imm)) := by
          simp only [step, getVal]
          rw [env_setReg_other _ _ _ _ (fun hh => hnrdx0 hh.symm)]
          rw [(hoth3 _ (by decide)).trans (hag1 _ (by decide)), hx0]
          rw [env_setReg_same _ _ _ hnrdx0]
          simp only [zero_add]
          rw [if_pos ⟨by omega, by omega⟩]
        refine ⟨setMem (setReg stM3 nrd (semImm op x1 imm)) (a3.mem_counter + 1)
          (semImm op x1 imm), ?_, ?_, ?_⟩
        · simp [evalInsts_append, hev1, hev3, evalInsts, hop, hsw]
        · refine ⟨hre, by rw [env_setReg_x0]; exact hx0, ?_, ?_, ?_, ?_⟩
          · intro r hr
            rw [show (setMem (setReg stM3 nrd (semImm op x1 imm)) (a3.mem_counter + 1)
              (semImm op x1 imm)).env = (setReg stM3 nrd (semImm op x1 imm)).env from rfl]
            rw [env_setReg_other _ _ _ _ (other_ne_usable r hr _ hnrdu)]
            rw [env_setReg_other stU rd (semImm op x1 imm) r
              (by intro hh; apply hrdn; show rd ∈ otherRegs; rw [← hh]; exact hr)]
            exact (hoth3 _ hr).trans (hag1 _ hr)
          · show -1 ≤ a3.mem_counter + 1 ∧ a3.mem_counter + 1 < (N : Int)
            constructor
            · omega
            · omega
          · intro n ad had
            simp only [cleanup, mmInsert] at had
            by_cases hn : n = rd
            · rw [if_pos hn] at had
              injection had with had
              constructor
              · omega
              · show ad ≤ a3.mem_counter + 1
                omega
            · rw [if_neg hn] at had
              rw [hmap3] at had
              have := hmb n ad had
              constructor
              · omega
              · show ad ≤ a3.mem_counter + 1
                omega
          · intro n v hn hv
            simp only [cleanup, mmInsert]
            by_cases hn' : n = rd
            · subst hn'
              rw [env_setReg_same _ _ _ hrdx0] at hv
              injection hv with hv
              refine ⟨a3.mem_counter + 1, by rw [if_pos rfl], ?_⟩
              rw [mem_setMem_same]
              exact hv
            · rw [env_setReg_other _ _ _ _ hn'] at hv
              obtain ⟨ad, hadm, hadv⟩ := hmm n v hn hv
              have hbd := hmb n ad hadm
              refine ⟨ad, ?_, ?_⟩
              · rw [if_neg hn', hmap3]
                exact hadm
              · rw [mem_setMem_other _ _ _ _ (by omega), mem_setReg, hmemM3]
                exact hadv
        · show a.mem_counter ≤ a3.mem_counter + 1 ∧ a3.mem_counter + 1 ≤ a.mem_counter + 1
          constructor
          · omega
          · omega
    · simp only [allocIop, hg1, if_neg hres, if_pos hres] at h
      injection h with hb ha2'
      subst hb
      subst ha2'
      have hnrdu : nrs1 ∈ usableRegs := S1r.resolve_left hres
      have hnrdx0 : ¬ nrs1 = "x0" := by
        intro hh
        rw [hh] at hnrdu
        exact absurd hnrdu (by decide)
      have hop : step N stM1 (.iop op nrs1 nrs1 imm) =
          some (setReg stM1 nrs1 (semImm op x1 imm)) := by
        simp only [step, getVal, henv1]
      have hsw : step N (setReg stM1 nrs1 (semImm op x1 imm))
          (.sw "x0" (a1.mem_counter + 1) nrs1) =
          some (setMem (setReg stM1 nrs1 (semImm op x1 imm)) (a1.mem_counter + 1)
            (semImm op x1 imm)) := by
        simp only [step, getVal]
        rw [env_setReg_other _ _ _ _ (fun hh => hnrdx0 hh.symm)]
        rw [hag1 _ (by decide), hx0]
        rw [env_setReg_same _ _ _ hnrdx0]
        simp only [zero_add]
        rw [if_pos ⟨by omega, by omega⟩]
      refine ⟨setMem (setReg stM1 nrs1 (semImm op x1 imm)) (a1.mem_counter + 1)
        (semImm op x1 imm), ?_, ?_, ?_⟩
      · simp [evalInsts_append, hev1, evalInsts, hop, hsw]
      · refine ⟨hre, by rw [env_setReg_x0]; exact hx0, ?_, ?_, ?_, ?_⟩
        · intro r hr
          rw [show (setMem (setReg stM1 nrs1 (semImm op x1 imm)) (a1.mem_counter + 1)
            (semImm op x1 imm)).env = (setReg stM1 nrs1 (semImm op x1 imm)).env from rfl]
          rw [env_setReg_other _ _ _ _ (other_ne_usable r hr _ hnrdu)]
          rw [env_setReg_other stU rd (semImm op x1 imm) r
            (by intro hh; apply hrdn; show rd ∈ otherRegs; rw [← hh]; exact hr)]
          exact hag1 _ hr
        · show -1 ≤ a1.mem_counter + 1 ∧ a1.mem_counter + 1 < (N : Int)
          constructor
          · omega
          · omega
        · intro n ad had
          simp only [cleanup, mmInsert] at had
          by_cases hn : n = rd
          · rw [if_pos hn] at had
            injection had with had
            constructor
            · omega
            · show ad ≤ a1.mem_counter + 1
              omega
          · rw [if_neg hn] at had
            rw [hmap1] at had
            have := hmb n ad had
            constructor
            · omega
            · show ad ≤ a1.mem_counter + 1
              omega
        · intro n v hn hv
          simp only [cleanup, mmInsert]
          by_cases hn' : n = rd
          · subst hn'
            rw [env_setReg_same _ _ _ hrdx0] at hv
            injection hv with hv
            refine ⟨a1.mem_counter + 1, by rw [if_pos rfl], ?_⟩
            rw [mem_setMem_same]
            exact hv
          · rw [env_setReg_other _ _ _ _ hn'] at hv
            obtain ⟨ad, hadm, hadv⟩ := hmm n v hn hv
            have hbd := hmb n ad hadm
            refine ⟨ad, ?_, ?_⟩
            · rw [if_neg hn', hmap1]
              exact hadm
            · rw [mem_setMem_other _ _ _ _ (by omega), mem_setReg, hmem1]
              exact hadv
      · show a.mem_counter ≤ a1.mem_counter + 1 ∧ a1.mem_counter + 1 ≤ a.mem_counter + 1
        constructor
        · omega
        · omega

/-- Whole-pass simulation for binary-only programs with non-reserved
destinations: if the unallocated program runs to completion and the spill
budget fits in memory, the allocated program runs to completion and the
simulation invariant connects the final states. -/
theorem allocSeq_sim (N : Nat) : ∀ (Q : List Instr) (penv : String → Option Int) (a : AllocSt)
    (stU stA : MState),
    (∀ i ∈ Q, isBinary i) → (∀ i ∈ Q, ¬ rdOf i ∈ otherRegs) →
    (a.mem_counter + 1 + (Q.length : Int) ≤ (N : Int)) →
    SimInv N stU stA a →
    ∀ stU', evalInsts N Q stU = some stU' →
    ∃ out a' stA', allocSeq penv a Q = some (out, a') ∧
      evalInsts N out stA = some stA' ∧ SimInv N stU' stA' a' := by
  intro Q
  induction Q with
  | nil =>
    intro penv a stU stA _ _ _ hinv stU' hU
    injection hU with hU
    subst hU
    exact ⟨[], a, stA, rfl, rfl, hinv⟩
  | cons i rest ih =>
    intro penv a stU stA hb hrd hbud hinv stU' hU
    simp only [evalInsts] at hU
    rcases hs : step N stU i with _ | stU1
    · rw [hs] at hU
      cases hU
    · rw [hs] at hU
      obtain ⟨blk, a1, hi⟩ := allocInst_isSome penv a i (hb i (List.mem_cons_self _ _))
      have hlen : ((i :: rest).length : Int) = (rest.length : Int) + 1 := by
        push_cast [List.length_cons]
        ring
      obtain ⟨stA1, hevb, hinv1, hctrle⟩ :=
        allocInst_sim N penv a i stU stA stU1 (hb i (List.mem_cons_self _ _))
          (hrd i (List.mem_cons_self _ _)) hinv (by rw [hlen] at hbud; omega) hs blk a1 hi
      obtain ⟨out, a2, stA2, hseq, hevrest, hinv2⟩ :=
        ih penv a1 stU1 stA1 (fun j hj => hb j (List.mem_cons_of_mem _ hj))
          (fun j hj => hrd j (List.mem_cons_of_mem _ hj))
          (by rw [hlen] at hbud; omega) hinv1 stU' hU
      refine ⟨blk ++ out, a2, stA2, ?_, ?_, hinv2⟩
      · simp only [allocSeq, hi, hseq]
      · rw [evalInsts_append, hevb]
        exact hevrest

/-- Claim C2 (amended): allocation preserves semantics for programs of
binary/binary-immediate instructions with non-reserved destinations, run
from an empty caller environment in a memory at least as large as the
instruction count.  If the unallocated program evaluates successfully,
its allocation completes, the allocated program evaluates successfully,
and every non-reserved name `n` defined by the original program resolves
through the allocator's final `reg_map`/`mem_map` (`RegAllocator.get_val`)
to exactly the value `eval(P)` left in `n`. -/
theorem c2_alloc_preserves_binary (N : Nat) (P : List Instr)
    (hbin : ∀ i ∈ P, isBinary i)
    (hrdn : ∀ i ∈ P, ¬ rdOf i ∈ otherRegs)
    (hlen : P.length ≤ N)
    (stU : MState)
    (hU : evalInsts N P (initState N envEmpty) = some stU) :
    ∃ out aF stA, allocate N envEmpty P = some (out, aF) ∧
      evalInsts N out (initState N envEmpty) = some stA ∧
      ∀ n v, ¬ n ∈ otherRegs → stU.env n = some v → allocGetVal N aF stA n = some v := by
  have hinv0 : SimInv N (initState N envEmpty) (initState N envEmpty) initAlloc := by
    refine ⟨rfl, rfl, fun r _ => rfl,
      ⟨le_refl (-1 : Int), show (-1 : Int) < (N : Int) by omega⟩, ?_, ?_⟩
    · intro n ad had
      cases had
    · intro n v hn hv
      exfalso
      have hnx0 : ¬ n = "x0" := fun hh => hn (by rw [hh]; decide)
      have hnsp : ¬ n = "sp" := fun hh => hn (by rw [hh]; decide)
      simp only [initState, envEmpty, if_neg hnx0, if_neg hnsp] at hv
      cases hv
  obtain ⟨out, aF, stA, hseq, hev, hinvF⟩ :=
    allocSeq_sim N P (initState N envEmpty).env initAlloc (initState N envEmpty)
      (initState N envEmpty) hbin hrdn
      (show (-1 : Int) + 1 + (P.length : Int) ≤ (N : Int) by omega) hinv0 stU hU
  refine ⟨out, aF, stA, hseq, hev, ?_⟩
  intro n v hn hv
  obtain ⟨hre, _, _, hcb, hmbF, hmmF⟩ := hinvF
  obtain ⟨ad, hadm, hadv⟩ := hmmF n v hn hv
  have hbd := hmbF n ad hadm
  simp only [allocGetVal, hre, rmLookup, hadm]
  rw [if_pos ⟨hbd.1, by omega⟩, hadv]

/-- Witness for `c2_alloc_preserves_binary`: a concrete one-instruction
program whose allocation the theorem proves successful. -/
theorem c2_alloc_preserves_binary_witness :
    (allocate 4 envEmpty [Instr.iop .addi "b" "x0" 7]).isSome = true := by
  obtain ⟨out, aF, stA, h, _, _⟩ :=
    c2_alloc_preserves_binary 4 [Instr.iop .addi "b" "x0" 7] (by decide) (by decide)
      (by decide)
      ((evalInsts 4 [Instr.iop .addi "b" "x0" 7] (initState 4 envEmpty)).getD default) rfl
  rw [h]
  rfl

/-- Claim C4 (amended): destination selection for binary instructions.
The rewritten destination reuses the first source's resolved register
exactly when neither resolved source operand is reserved (for immediate
forms: when the first source is not reserved); when either resolved
source is reserved, the destination is resolved through `get_var_name`
instead.  The code path that would reuse the second operand's register is
dead: in the reuse branch the destination is always the first source's
register. -/
theorem c4_destination_selection (penv : String → Option Int) (a : AllocSt) :
    (∀ (op : BOp) (rd rs1 rs2 : String) (blk : List Instr) (a' : AllocSt)
       (nrs1 : String) (i1 : Option Instr) (a1 : AllocSt)
       (nrs2 : String) (i2 : Option Instr) (a2 : AllocSt),
      getVarName a rs1 = (nrs1, i1, a1) →
      getVarName a1 rs2 = (nrs2, i2, a2) →
      allocInst penv a (.rop op rd rs1 rs2) = some (blk, a') →
      ∃ pre post d,
        blk = pre ++ [.rop op d nrs1 nrs2] ++ post ∧
        ((¬ nrs1 ∈ otherRegs ∧ ¬ nrs2 ∈ otherRegs ∧ d = nrs1) ∨
         ((nrs1 ∈ otherRegs ∨ nrs2 ∈ otherRegs) ∧ d = (getVarName a2 rd).1))) ∧
    (∀ (op : IOp) (rd rs1 : String) (imm : Int) (blk : List Instr) (a' : AllocSt)
       (nrs1 : String) (i1 : Option Instr) (a1 : AllocSt),
      getVarName a rs1 = (nrs1, i1, a1) →
      allocInst penv a (.iop op rd rs1 imm) = some (blk, a') →
      ∃ pre post d,
        blk = pre ++ [.iop op d nrs1 imm] ++ post ∧
        ((¬ nrs1 ∈ otherRegs ∧ d = nrs1) ∨
         (nrs1 ∈ otherRegs ∧ d = (getVarName a1 rd).1))) := by
  constructor
  · intro op rd rs1 rs2 blk a' nrs1 i1 a1 nrs2 i2 a2 hg1 hg2 h
    simp only [allocInst, Option.some_inj] at h
    by_cases hres : nrs1 ∈ otherRegs ∨ nrs2 ∈ otherRegs
    · rcases hg3 : getVarName a2 rd with ⟨nrd, i3, a3⟩
      by_cases hrd : nrd ∈ otherRegs
      · simp only [allocRop, hg1, hg2, hg3, if_pos hres, if_neg (not_not_intro hrd)] at h
        injection h with hb ha
        subst hb
        exact ⟨i1.toList ++ i2.toList ++ i3.toList, [], nrd,
          by simp [List.append_assoc], Or.inr ⟨hres, rfl⟩⟩
      · simp only [allocRop, hg1, hg2, hg3, if_pos hres, if_pos hrd] at h
        injection h with hb ha
        subst hb
        exact ⟨i1.toList ++ i2.toList ++ i3.toList,
          [.sw "x0" (a3.mem_counter + 1) nrd], nrd,
          by simp [List.append_assoc], Or.inr ⟨hres, rfl⟩⟩
    · push_neg at hres
      obtain ⟨hres1, hres2⟩ := hres
      have hOr : ¬(nrs1 ∈ otherRegs ∨ nrs2 ∈ otherRegs) := not_or.mpr ⟨hres1, hres2⟩
      simp only [allocRop, hg1, hg2, if_neg hOr, if_pos hres1] at h
      injection h with hb ha
      subst hb
      exact ⟨i1.toList ++ i2.toList, [.sw "x0" (a2.mem_counter + 1) nrs1], nrs1,
        by simp [List.append_assoc], Or.inl ⟨hres1, hres2, rfl⟩⟩
  · intro op rd rs1 imm blk a' nrs1 i1 a1 hg1 h
    simp only [allocInst, Option.some_inj] at h
    by_cases hres : nrs1 ∈ otherRegs
    · rcases hg3 : getVarName a1 rd with ⟨nrd, i3, a3⟩
      by_cases hrd : nrd ∈ otherRegs
      · simp only [allocIop, hg1, hg3, if_pos hres, if_neg (not_not_intro hrd)] at h
        injection h with hb ha
        subst hb
        exact ⟨i1.toList ++ i3.toList, [], nrd,
          by simp [List.append_assoc], Or.inr ⟨hres, rfl⟩⟩
      · simp only [allocIop, hg1, hg3, if_pos hres, if_pos hrd] at h
        injection h with hb ha
        subst hb
        exact ⟨i1.toList ++ i3.toList, [.sw "x0" (a3.mem_counter + 1) nrd], nrd,
          by simp [List.append_assoc], Or.inr ⟨hres, rfl⟩⟩
    · simp only [allocIop, hg1, if_neg hres, if_pos hres] at h
      injection h with hb ha
      subst hb
      exact ⟨i1.toList, [.sw "x0" (a1.mem_counter + 1) nrs1], nrs1,
        by simp [List.append_assoc], Or.inl ⟨hres, rfl⟩⟩

/-- Witness for `c4_destination_selection`: the reserved-second-source
instruction `add c, a, x0` processed from a fresh allocator state. -/
theorem c4_destination_selection_witness :
    ∃ pre post d,
      ([Instr.rop .add "a2" "a1" "x0", .sw "x0" 0 "a2"] : List Instr) =
        pre ++ [.rop .add d "a1" "x0"] ++ post ∧
      ((¬ "a1" ∈ otherRegs ∧ ¬ "x0" ∈ otherRegs ∧ d = "a1") ∨
       (("a1" ∈ otherRegs ∨ "x0" ∈ otherRegs) ∧
        d = (getVarName { initAlloc with reg_map := [("a", "a1")] } "c").1)) :=
  (c4_destination_selection envEmpty initAlloc).1 .add "c" "a" "x0"
    [Instr.rop .add "a2" "a1" "x0", .sw "x0" 0 "a2"]
    ((allocInst envEmpty initAlloc (.rop .add "c" "a" "x0")).getD ([], initAlloc)).2
    "a1" none { initAlloc with reg_map := [("a", "a1")] }
    "x0" none { initAlloc with reg_map := [("a", "a1")] }
    rfl rfl rfl

/-- Claim C9: for every integer operand value `x`, the instruction
sequence generated for logical not — `slt(0,x)`, `slt(x,0)`, their sum,
then xor with 1 — evaluates to 1 exactly when `x` is 0 and to 0 for any
nonzero `x`, positive or negative. -/
theorem c9_not_block_correct (x : Int) :
    genRun 1000 (envZ x) (.enot (.evar "z")) = some (if x = 0 then 1 else 0) := by
  have hgen : gen (initState 1000 (envZ x)).env (.enot (.evar "z")) initGen =
      some ([.rop .slt "v1" "x0" "z", .rop .slt "v2" "z" "x0",
             .rop .add "v3" "v1" "v2", .iop .xori "v4" "v3" 1], "v4",
            { counter := 4, scope := initGen.scope }) := rfl
  rw [genRun, hgen]
  simp [evalVal, evalInsts, step, getVal, setReg, setMem, semBin, semImm,
    initState, envZ, Option.bind]
  rcases lt_trichotomy x 0 with h | h | h
  · rw [if_neg (by omega), if_pos h, if_neg (by omega)]
    decide
  · subst h
    decide
  · rw [if_pos h, if_neg (by omega), if_neg (by omega)]
    decide

/-- Code generation leaves the scope stack exactly as it found it: every
`visit_let` pops the binding it pushed, so after any subexpression is
generated, name resolution at the enclosing level sees the same bindings
as before. -/
theorem gen_scope (penv : String → Option Int) :
    ∀ (e : Expr) (g : GenSt) (out : List Instr × String × GenSt),
      gen penv e g = some out → out.2.2.scope = g.scope := by
  intro e
  induction e with
  | num n => intro g out h; cases h; rfl
  | bln b =>
    intro g out h
    by_cases hb : b
    · subst hb; cases h; rfl
    · simp only [gen, hb, Bool.false_eq_true, if_false, ite_false, Option.some_inj] at h
      cases h; rfl
  | evar x =>
    intro g out h
    simp only [gen] at h
    split at h
    · cases h; rfl
    · split at h
      · cases h; rfl
      · cases h
  | add l r ihl ihr =>
    intro g out h
    simp only [gen] at h
    split at h
    · cases h
    · rename_i il rl g1 h1
      split at h
      · cases h
      · rename_i ir rr g2 h2
        cases h
        exact (ihr g1 _ h2).trans (ihl g _ h1)
  | sub l r ihl ihr =>
    intro g out h
    simp only [gen] at h
    split at h
    · cases h
    · rename_i il rl g1 h1
      split at h
      · cases h
      · rename_i ir rr g2 h2
        cases h
        exact (ihr g1 _ h2).trans (ihl g _ h1)
  | mul l r ihl ihr =>
    intro g out h
    simp only [gen] at h
    split at h
    · cases h
    · rename_i il rl g1 h1
      split at h
      · cases h
      · rename_i ir rr g2 h2
        cases h
        exact (ihr g1 _ h2).trans (ihl g _ h1)
  | div l r ihl ihr =>
    intro g out h
    simp only [gen] at h
    split at h
    · cases h
    · rename_i il rl g1 h1
      split at h
      · cases h
      · rename_i ir rr g2 h2
        cases h
        exact (ihr g1 _ h2).trans (ihl g _ h1)
  | eql l r ihl ihr =>
    intro g out h
    simp only [gen] at h
    split at h
    · cases h
    · rename_i il rl g1 h1
      split at h
      · cases h
      · rename_i ir rr g2 h2
        cases h
        exact (ihr g1 _ h2).trans (ihl g _ h1)
  | leq l r ihl ihr =>
    intro g out h
    simp only [gen] at h
    split at h
    · cases h
    · rename_i il rl g1 h1
      split at h
      · cases h
      · rename_i ir rr g2 h2
        cases h
        exact (ihr g1 _ h2).trans (ihl g _ h1)
  | lth l r ihl ihr =>
    intro g out h
    simp only [gen] at h
    split at h
    · cases h
    · rename_i il rl g1 h1
      split at h
      · cases h
      · rename_i ir rr g2 h2
        cases h
        exact (ihr g1 _ h2).trans (ihl g _ h1)
  | neg e ihe =>
    intro g out h
    simp only [gen] at h
    split at h
    · cases h
    · rename_i ie re g1 h1
      cases h
      exact ihe g (ie, re, g1) h1
  | enot e ihe =>
    intro g out h
    simp only [gen] at h
    split at h
    · cases h
    · rename_i ie re g1 h1
      cases h
      exact ihe g (ie, re, g1) h1
  | elet x d b ihd ihb =>
    intro g out h
    simp only [gen] at h
    split at h
    · cases h
    · rename_i idf rdf g1 h1
      split at h
      · cases h
      · rename_i ib rb g3 h2
        cases h
        have hb3 := ihb _ _ h2
        have hd1 := ihd _ _ h1
        funext y
        simp only [popVar]
        by_cases hy : y = x
        · subst hy
          simp only [if_pos rfl, ite_true]
          rw [hb3]
          simp only [pushUnique, if_pos rfl, ite_true]
          rw [List.dropLast_concat]
          exact congrFun hd1 y
        · simp only [if_neg hy]
          rw [hb3]
          simp only [pushUnique, if_neg hy]
          exact congrFun hd1 y

/-- Claim C8: let-binding scoping is hygienic under shadowing.  The
shadowing example `let v ← 2 in let v ← 3 in v end end` generates and
evaluates to 3; a reference to `v` after an inner shadowing `let` closes
resolves to the outer binding (`let v ← 2 in (let v ← 3 in v end) + v
end` evaluates to 3 + 2 = 5); a reference with no active binding and no
initial-environment entry is fatal; and generation restores the scope
stack of every subexpression, so sibling code after a `let` resolves
names exactly as before the `let`. -/
theorem c8_let_hygiene :
    genRun 1000 envEmpty (.elet "v" (.num 2) (.elet "v" (.num 3) (.evar "v"))) = some 3 ∧
    genRun 1000 envEmpty
      (.elet "v" (.num 2) (.add (.elet "v" (.num 3) (.evar "v")) (.evar "v"))) = some 5 ∧
    genRun 1000 envEmpty (.evar "q") = none ∧
    (∀ (penv : String → Option Int) (e : Expr) (g : GenSt)
       (out : List Instr × String × GenSt),
       gen penv e g = some out → out.2.2.scope = g.scope) := by
  exact ⟨rfl, rfl, rfl, gen_scope⟩

/-- Witness for `c8_let_hygiene`: the scope-restoration conjunct applied
to a concrete generation of a `let` expression. -/
theorem c8_let_hygiene_witness :
    (((gen envEmpty (.elet "w" (.num 1) (.evar "w")) initGen).getD
        ([], "", initGen)).2.2.scope "w" = initGen.scope "w") := by
  have h := c8_let_hygiene.2.2.2 envEmpty (.elet "w" (.num 1) (.evar "w")) initGen
    ((gen envEmpty (.elet "w" (.num 1) (.evar "w")) initGen).getD ([], "", initGen)) rfl
  exact congrFun h "w"

/-- Claim C1 (code bug): the semantic round trip fails on the expression
`(let x ← 1 in x end) + (let x ← 2 in x end)`.  The reference
interpretation is 1 + 2 = 3, but because the generator re-mints the
binding name `x_0` for the second sibling `let`, both operands of the
final `add` read the second binding and the generated program — both
before and after register allocation — evaluates to 2 + 2 = 4. -/
theorem c1_roundtrip_fails_on_sibling_lets :
    interp [] siblingLets = some 3 ∧
    genRun 1000 envEmpty siblingLets = some 4 ∧
    compileAllocRun 1000 envEmpty siblingLets = some 4 := by
  refine ⟨rfl, rfl, rfl⟩

/-- Claim C7 (code bug): the generated stream for `siblingLets` is not
alias-free: the let-copy name `x_0` is minted twice, so two distinct
instructions write it. -/
theorem c7_let_copy_name_reused :
    (gen (initState 1000 envEmpty).env siblingLets initGen).map (fun o => o.1) =
      some [.iop .addi "v1" "x0" 1, .iop .addi "x_0" "v1" 0,
            .iop .addi "v2" "x0" 2, .iop .addi "x_0" "v2" 0,
            .rop .add "v3" "x_0" "x_0"] ∧
    ([Instr.iop .addi "v1" "x0" 1, .iop .addi "x_0" "v1" 0,
      .iop .addi "v2" "x0" 2, .iop .addi "x_0" "v2" 0,
      .rop .add "v3" "x_0" "x_0"].filter (fun i => rdOf i = "x_0")).length = 2 := by
  refine ⟨rfl, rfl⟩

/-- Claim C2 (counterexample): allocation does not preserve the observable
value of every program.  Two failure modes.  (1) The unallocated program
`addi b, z, 0` run with initial environment `z ↦ 5` leaves `b = 5`, but
its allocated version (`addi a1, a1, 0; sw x0, 0, a1`) never reloads `z`
from anywhere, so executing it faults on the unbound register `a1` and no
value is observable at the allocator-resolved location of `b`.  (2) In
`addi b, x0, 7; add sp, b, b; addi c, sp, 0` the write to the reserved
`sp` is redirected to a reused source register, so the later read of `sp`
sees the stale stack pointer and the resolved location of `c` holds 1000
instead of 14. -/
theorem c2_env_read_lost :
    (evalVal 1000 envZ5 envReadProg "b" = some 5 ∧
     (allocate 1000 envZ5 envReadProg).map (fun p => p.1) =
       some [.iop .addi "a1" "a1" 0, .sw "x0" 0 "a1"] ∧
     ((allocate 1000 envZ5 envReadProg).bind fun p =>
       (evalInsts 1000 p.1 (initState 1000 envZ5)).bind fun st =>
         allocGetVal 1000 p.2 st "b") = none) ∧
    (evalVal 1000 envEmpty reservedDestProg "c" = some 14 ∧
     ((allocate 1000 envEmpty reservedDestProg).bind fun p =>
       (evalInsts 1000 p.1 (initState 1000 envEmpty)).bind fun st =>
         allocGetVal 1000 p.2 st "c") = some 1000) := by
  refine ⟨⟨rfl, rfl, rfl⟩, rfl, rfl⟩

/-- Claim C3 (counterexample): a load instruction is not followed by a
spill of its destination: allocating the single-instruction program
`lw x0, 5, a` emits exactly the rewritten load, records nothing in
`mem_map`, leaves `mem_counter` untouched and keeps the destination
resident in `reg_map`. -/
theorem c3_load_not_spilled :
    (allocate 1000 envEmpty oneLoadProg).map
      (fun p => (p.1, p.2.mem_map "a", rmLookup p.2.reg_map "a", p.2.mem_counter)) =
      some ([.lw "x0" 5 "a1"], none, some "a1", -1) := by
  rfl

/-- Claim C4 (counterexample): for `add c, a, x0` the first source
resolves to the non-reserved register `a1`, yet the allocator does not
reuse it as the destination: because the second source is reserved, the
destination is freshly resolved to `a2`. -/
theorem c4_no_reuse_under_reserved_second_source :
    (allocate 1000 envEmpty reservedSrcProg).map (fun p => p.1) =
      some [.rop .add "a2" "a1" "x0", .sw "x0" 0 "a2"] ∧
    ¬ ("a1" ∈ otherRegs) ∧ ¬ ("a2" = "a1") := by
  refine ⟨rfl, by decide, by decide⟩

/-- Claim C5 (counterexample): register exhaustion is reachable with
allocatable opcodes.  Allocating five consecutive loads binds `a1`, `a2`,
`a3`, `a0` to the first four destinations without ever releasing them, so
the fifth request for a free register takes the exhaustion branch
(`next_var_name` returns the none marker, which ends up in the stream). -/
theorem c5_five_loads_exhaust :
    (allocate 1000 envEmpty fiveLoadsProg).map (fun p => p.1) =
      some [.lw "x0" 0 "a1", .lw "x0" 0 "a2", .lw "x0" 0 "a3", .lw "x0" 0 "a0",
            .lw "x0" 0 noneReg] ∧
    ¬ (noneReg ∈ usableRegs) := by
  refine ⟨rfl, by decide⟩

/-- Claim C6 (counterexample): an allocation pass over allocatable opcodes
can complete with an operand that is none of the seven physical register
names: the fifth rewritten load of `fiveLoadsProg` carries the exhaustion
marker as its destination. -/
theorem c6_nonphysical_operand_survives :
    ((allocate 1000 envEmpty fiveLoadsProg).map fun p =>
        p.1.getLast? ) = some (some (.lw "x0" 0 noneReg)) ∧
    ¬ (noneReg ∈ physRegs) := by
  refine ⟨rfl, by decide⟩

/-- Claim C10: `next_var_name` scans the fixed priority order `a1`, `a2`,
`a3`, `a0` and returns the first register that is not currently a value
of `reg_map` (the none marker when all four are occupied); in particular
whenever `a1` is unoccupied — e.g. whenever `reg_map` is empty — the
chosen register is `a1`. -/
theorem c10_next_var_name_priority :
    (∀ a : AllocSt, ¬ "a1" ∈ rmValues a.reg_map → nextVarName a = "a1") ∧
    (∀ a : AllocSt, "a1" ∈ rmValues a.reg_map → ¬ "a2" ∈ rmValues a.reg_map →
      nextVarName a = "a2") ∧
    (∀ a : AllocSt, "a1" ∈ rmValues a.reg_map → "a2" ∈ rmValues a.reg_map →
      ¬ "a3" ∈ rmValues a.reg_map → nextVarName a = "a3") ∧
    (∀ a : AllocSt, "a1" ∈ rmValues a.reg_map → "a2" ∈ rmValues a.reg_map →
      "a3" ∈ rmValues a.reg_map → ¬ "a0" ∈ rmValues a.reg_map →
      nextVarName a = "a0") ∧
    (∀ a : AllocSt, "a1" ∈ rmValues a.reg_map → "a2" ∈ rmValues a.reg_map →
      "a3" ∈ rmValues a.reg_map → "a0" ∈ rmValues a.reg_map →
      nextVarName a = noneReg) := by
  refine ⟨?_, ?_, ?_, ?_, ?_⟩ <;>
    intro a <;> intros <;>
    simp_all [nextVarName, nextFree, usableRegs]

/-- Witness for `c10_next_var_name_priority`: the scan order observed on
concrete allocator states with zero to four occupied registers. -/
theorem c10_next_var_name_priority_witness :
    nextVarName initAlloc = "a1" ∧
    nextVarName ⟨[("w", "a1")], fun _ => none, -1⟩ = "a2" ∧
    nextVarName ⟨[("w", "a1"), ("x", "a2")], fun _ => none, -1⟩ = "a3" ∧
    nextVarName ⟨[("w", "a1"), ("x", "a2"), ("y", "a3")], fun _ => none, -1⟩ = "a0" ∧
    nextVarName ⟨[("w", "a1"), ("x", "a2"), ("y", "a3"), ("z", "a0")], fun _ => none, -1⟩ =
      noneReg := by
  refine ⟨c10_next_var_name_priority.1 _ (by decide),
    c10_next_var_name_priority.2.1 _ (by decide) (by decide),
    c10_next_var_name_priority.2.2.1 _ (by decide) (by decide) (by decide),
    c10_next_var_name_priority.2.2.2.1 _ (by decide) (by decide) (by decide) (by decide),
    c10_next_var_name_priority.2.2.2.2 _ (by decide) (by decide) (by decide) (by decide)⟩

end Tp
